import Mathlib

/-!
# Verification of the lexiflow-premium docket-ingestion pipeline

Shallow embedding, in Lean 4, of the data model and operations of the
legal-docket ingestion scripts of this repository:

* `load_parties_attorneys.py` (party / attorney / case-party loader),
* `archived/load_docket_entries.py` (docket-entry loader, direct-write mode),
* `archived/load_docket_entries_pg8000.py` (docket-entry loader variant with a
  duplicate-sequence check),
* `archived/generate_docket_sql.py` (docket-entry SQL-script generator),
* `archived/scripts/generate_docket_entries_25_1229.py` (pipe-delimited SQL
  generator for case 25-1229).

Python strings are modelled as Lean `String`; the ASCII fragment of
`str.upper` / `str.lower` is used (all keyword constants in the source are
ASCII).  Python substring tests (`"X" in text`) are modelled as list-infix
tests on the underlying character lists.  Database tables are modelled as
in-memory lists of rows; the random UUIDs of the source are modelled by a
deterministic counter threaded through the operations (no claim depends on the
shape of an id, only on row identity and freshness).  Timestamp columns
(`created_at` / `updated_at`) are omitted from row models: no claim mentions
them.
-/

/-- `startsWith pat l`: `pat` is a prefix of `l` (character lists). -/
def startsWith : List Char → List Char → Bool
  | [], _ => true
  | _ :: _, [] => false
  | a :: as, b :: bs => a == b && startsWith as bs

/-- `infixOf pat l`: `pat` occurs contiguously inside `l` (character lists). -/
def infixOf (pat : List Char) : List Char → Bool
  | [] => pat.isEmpty
  | b :: bs => startsWith pat (b :: bs) || infixOf pat bs

/-- Python `pat in s` on strings: `pat` occurs as a contiguous substring of `s`. -/
def strContains (s pat : String) : Bool := infixOf pat.data s.data

/-- Python `str.upper()` (ASCII fragment, which covers every keyword constant
in the source): upper-case each character. -/
def strUpper (s : String) : String := ⟨s.data.map Char.toUpper⟩

/-- Python `str.lower()` (ASCII fragment): lower-case each character. -/
def strLower (s : String) : String := ⟨s.data.map Char.toLower⟩

namespace LoadDocket

/-- `extract_type` of `archived/load_docket_entries.py` (lines 42-78): ordered
keyword rules over the upper-cased text, first match wins, default "Filing". -/
def extract_type (text : String) : String :=
  let u := strUpper text
  if strContains u "CERTIFICATE OF SERVICE" || strContains u "CERT OF SERVICE" then "Certificate"
  else if strContains u "CERTIFICATE" then "Certificate"
  else if strContains u "MOTION" then "Motion"
  else if strContains u "ORDER" then "Order"
  else if strContains u "RESPONSE" || strContains u "OPPOSITION" then "Response"
  else if strContains u "REPLY" then "Reply"
  else if strContains u "NOTICE" then "Notice"
  else if strContains u "BRIEF" || strContains u "MEMORANDUM" then "Brief"
  else if strContains u "APPEAL" then "Appeal"
  else if strContains u "PETITION" then "Petition"
  else if strContains u "TRANSCRIPT" then "Transcript"
  else if strContains u "JUDGMENT" then "Judgment"
  else if strContains u "DOCKETING STATEMENT" then "Statement"
  else if strContains u "APPENDIX" then "Appendix"
  else if strContains u "EXHIBITS" || strContains u "EXHIBIT" then "Exhibit"
  else "Filing"

end LoadDocket

/-- One classification rule of the specification: a list of alternative
keywords and the resulting type. -/
abbrev ClassRule := List String × String

/-- First-match evaluation of an ordered rule list (specification §4.2):
the first rule one of whose keywords occurs in the upper-cased text wins. -/
def classifyRules (u : String) : List ClassRule → String
  | [] => "Filing"
  | (kws, res) :: rest => if kws.any (strContains u) then res else classifyRules u rest

/-- The ordered keyword-rule table exactly as written in specification §4.2. -/
def specRules : List ClassRule :=
  [ (["CERTIFICATE OF SERVICE", "CERT OF SERVICE"], "Certificate")
  , (["CERTIFICATE"], "Certificate")
  , (["MOTION"], "Motion")
  , (["ORDER"], "Order")
  , (["RESPONSE", "OPPOSITION"], "Response")
  , (["REPLY"], "Reply")
  , (["NOTICE"], "Notice")
  , (["BRIEF", "MEMORANDUM"], "Brief")
  , (["APPEAL"], "Appeal")
  , (["PETITION"], "Petition")
  , (["TRANSCRIPT"], "Transcript")
  , (["JUDGMENT"], "Judgment")
  , (["DOCKETING STATEMENT"], "Statement")
  , (["APPENDIX"], "Appendix")
  , (["EXHIBITS", "EXHIBIT"], "Exhibit") ]

/-- The specification's classifier: upper-case, then first matching rule of
the §4.2 table, defaulting to "Filing". -/
def specClassify (text : String) : String := classifyRules (strUpper text) specRules

/-- The classifier of the code agrees with the ordered rule table of the
specification on every text. -/
theorem extract_type_eq_specClassify (t : String) :
    LoadDocket.extract_type t = specClassify t := by
  unfold LoadDocket.extract_type specClassify specRules
  simp only [classifyRules, List.any_cons, List.any_nil, Bool.or_false]

theorem startsWith_iff (p l : List Char) : startsWith p l = true ↔ p <+: l := by
  induction p generalizing l with
  | nil => simp [startsWith]
  | cons a as ih =>
    cases l with
    | nil => simp [startsWith]
    | cons b bs => simp [startsWith, ih, List.cons_prefix_cons]

theorem infixOf_iff (p l : List Char) : infixOf p l = true ↔ p <:+: l := by
  induction l with
  | nil => simp [infixOf, List.isEmpty_iff]
  | cons b bs ih => rw [infixOf, Bool.or_eq_true, startsWith_iff, ih, List.infix_cons_iff]

/-- Substring containment is monotone: if `p` occurs inside `q` and `q` occurs
in `s`, then `p` occurs in `s`. -/
theorem strContains_mono {s p q : String} (sub : p.data <:+: q.data)
    (h : strContains s q = true) : strContains s p = true := by
  rw [strContains, infixOf_iff] at h ⊢
  exact sub.trans h

/-- All keywords of the §4.2 rule table, in rule order. -/
def specKeywords : List String := (specRules.map Prod.fst).flatten

/-- C1: the type classifier upper-cases the text and evaluates the §4.2
keyword rules in order with first match winning; consequently a text
containing both "MOTION" and "ORDER" — and no Certificate keyword, which an
earlier rule would capture first — is classified "Motion"; a text containing
"CERTIFICATE OF SERVICE" is classified "Certificate" even when it also
contains "MOTION"; and a text containing no keyword at all is classified
"Filing". -/
theorem c1_type_classifier_order (t : String) :
    (LoadDocket.extract_type t = specClassify t)
    ∧ (strContains (strUpper t) "MOTION" = true →
       strContains (strUpper t) "ORDER" = true →
       strContains (strUpper t) "CERTIFICATE" = false →
       strContains (strUpper t) "CERT OF SERVICE" = false →
       LoadDocket.extract_type t = "Motion")
    ∧ (strContains (strUpper t) "CERTIFICATE OF SERVICE" = true →
       LoadDocket.extract_type t = "Certificate")
    ∧ ((∀ kw ∈ specKeywords, strContains (strUpper t) kw = false) →
       LoadDocket.extract_type t = "Filing") := by
  refine ⟨extract_type_eq_specClassify t, ?_, ?_, ?_⟩
  · intro hm ho hc hcos
    have h1 : strContains (strUpper t) "CERTIFICATE OF SERVICE" = false := by
      by_contra h
      rw [Bool.not_eq_false] at h
      have := strContains_mono (s := strUpper t)
        (p := "CERTIFICATE") (q := "CERTIFICATE OF SERVICE") (by decide) h
      simp [this] at hc
    simp [LoadDocket.extract_type, h1, hcos, hc, hm]
  · intro h
    simp [LoadDocket.extract_type, h]
  · intro h
    have u1 := h "CERTIFICATE OF SERVICE" (by decide)
    have u2 := h "CERT OF SERVICE" (by decide)
    have u3 := h "CERTIFICATE" (by decide)
    have u4 := h "MOTION" (by decide)
    have u5 := h "ORDER" (by decide)
    have u6 := h "RESPONSE" (by decide)
    have u7 := h "OPPOSITION" (by decide)
    have u8 := h "REPLY" (by decide)
    have u9 := h "NOTICE" (by decide)
    have u10 := h "BRIEF" (by decide)
    have u11 := h "MEMORANDUM" (by decide)
    have u12 := h "APPEAL" (by decide)
    have u13 := h "PETITION" (by decide)
    have u14 := h "TRANSCRIPT" (by decide)
    have u15 := h "JUDGMENT" (by decide)
    have u16 := h "DOCKETING STATEMENT" (by decide)
    have u17 := h "APPENDIX" (by decide)
    have u18 := h "EXHIBITS" (by decide)
    have u19 := h "EXHIBIT" (by decide)
    simp [LoadDocket.extract_type, u1, u2, u3, u4, u5, u6, u7, u8, u9, u10,
      u11, u12, u13, u14, u15, u16, u17, u18, u19]

/-- C1 witness: the classifier evaluated on concrete texts for each branch of
the claim. -/
theorem c1_type_classifier_order_witness :
    LoadDocket.extract_type "Motion to Compel Order" = "Motion"
    ∧ LoadDocket.extract_type "Certificate of Service of Motion" = "Certificate"
    ∧ LoadDocket.extract_type "hello world" = "Filing" :=
  ⟨(c1_type_classifier_order "Motion to Compel Order").2.1
      (by decide) (by decide) (by decide) (by decide),
   (c1_type_classifier_order "Certificate of Service of Motion").2.2.1 (by decide),
   (c1_type_classifier_order "hello world").2.2.2 (by decide)⟩

/-- C1 counterexample: the claim as stated says any text containing both
"MOTION" and "ORDER" is classified "Motion"; but a text that also contains
"CERTIFICATE" is captured by the earlier Certificate rule. -/
theorem c1_motion_order_counterexample :
    strContains "CERTIFICATE RE MOTION AND ORDER" "MOTION" = true
    ∧ strContains "CERTIFICATE RE MOTION AND ORDER" "ORDER" = true
    ∧ LoadDocket.extract_type "CERTIFICATE RE MOTION AND ORDER" ≠ "Motion" := by decide

/-- Characters Python `str.strip()` removes (ASCII whitespace fragment). -/
def isSpaceCh (c : Char) : Bool :=
  c == ' ' || c == '\t' || c == '\n' || c == '\r' || c == '\x0b' || c == '\x0c'

/-- Python `str.strip()`: drop whitespace from both ends. -/
def pyStrip (s : String) : String :=
  ⟨((s.data.dropWhile isSpaceCh).reverse.dropWhile isSpaceCh).reverse⟩

/-- Python `s.replace(' ', '.')`: every space becomes a dot. -/
def spacesToDots (s : String) : String :=
  ⟨s.data.map (fun c => if c == ' ' then '.' else c)⟩

/-- ASCII decimal digit (regex `\d`, ASCII fragment). -/
def isDigitCh (c : Char) : Bool := decide (48 ≤ c.toNat ∧ c.toNat ≤ 57)

/-- Regex `\w` (ASCII fragment): letters, digits, underscore. -/
def isWordCh (c : Char) : Bool := c.isAlpha || isDigitCh c || c == '_'

/-- One pass of `re.sub(r'\[\d{2}-\d{4}\]', '', text)`: delete every
non-overlapping occurrence of a bracketed case-number token `[NN-NNNN]`
(exactly two digits, a dash, exactly four digits). -/
def removeCaseTok : List Char → List Char
  | b :: d1 :: d2 :: dash :: d3 :: d4 :: d5 :: d6 :: br :: rest =>
      if b == '[' && isDigitCh d1 && isDigitCh d2 && dash == '-' && isDigitCh d3 &&
         isDigitCh d4 && isDigitCh d5 && isDigitCh d6 && br == ']' then
        removeCaseTok rest
      else b :: removeCaseTok (d1 :: d2 :: dash :: d3 :: d4 :: d5 :: d6 :: br :: rest)
  | l => l

/-- `re.sub(r'\[\d{10,}\]', '', text)` with explicit fuel (the fuel is the
length of the list, enough for the scan to finish): delete every bracketed
run of at least ten digits. -/
def removeEcfTokFuel : Nat → List Char → List Char
  | 0, l => l
  | _ + 1, [] => []
  | n + 1, c :: rest =>
      if c == '[' then
        let run := rest.takeWhile isDigitCh
        if 10 ≤ run.length && (rest.drop run.length).head? == some ']' then
          removeEcfTokFuel n (rest.drop (run.length + 1))
        else c :: removeEcfTokFuel n rest
      else c :: removeEcfTokFuel n rest

/-- `re.sub(r'\[\d{10,}\]', '', text)`. -/
def removeEcfTok (l : List Char) : List Char := removeEcfTokFuel l.length l

/-- Python `str.split()` with no argument: split on whitespace runs,
discarding empty fields. -/
def splitWsAux : List Char → List Char → List (List Char)
  | [], acc => if acc.isEmpty then [] else [acc.reverse]
  | c :: rest, acc =>
      if isSpaceCh c then
        if acc.isEmpty then splitWsAux rest [] else acc.reverse :: splitWsAux rest []
      else splitWsAux rest (c :: acc)

/-- Python `' '.join(text.split())`: collapse whitespace runs to single
spaces and trim the ends. -/
def collapseWs (l : List Char) : List Char :=
  ((splitWsAux l []).intersperse [' ']).flatten

/-- At one position, match `\s*\([^)]*\)\s*` and return how many characters
the match consumes, or `none` if the pattern does not match here. -/
def parenMatchLen (l : List Char) : Option Nat :=
  let a := l.takeWhile isSpaceCh
  let l1 := l.drop a.length
  match l1.head? with
  | some '(' =>
      let inner := (l1.drop 1).takeWhile (fun c => !(c == ')'))
      let l2 := l1.drop (1 + inner.length)
      match l2.head? with
      | some ')' =>
          let b := (l2.drop 1).takeWhile isSpaceCh
          some (a.length + 1 + inner.length + 1 + b.length)
      | _ => none
  | _ => none

/-- `re.sub(r'\s*\([^)]*\)\s*', ' ', s)` with explicit fuel: replace every
parenthetical aside (with its surrounding whitespace) by a single space. -/
def removeParensFuel : Nat → List Char → List Char
  | 0, l => l
  | _ + 1, [] => []
  | n + 1, c :: rest =>
      match parenMatchLen (c :: rest) with
      | some k => ' ' :: removeParensFuel n ((c :: rest).drop k)
      | none => c :: removeParensFuel n rest

/-- `re.sub(r'\s*\([^)]*\)\s*', ' ', s)`. -/
def removeParens (l : List Char) : List Char := removeParensFuel l.length l

/-- Match of `re.search(r'\bby\s+([^\.]+?)(?:\.|$)', text, re.IGNORECASE)`
attempted at one position: `prev` is the character before the position (for
the word boundary `\b`), the list is the remaining text.  Returns group 1.
The lazy group takes the characters up to the first dot (or the end); when
the character right after the greedy whitespace run is a dot, the engine
backtracks one whitespace character, which then forms the group alone. -/
def byMatchAt (prev : Option Char) : List Char → Option (List Char)
  | b :: y :: rest =>
      if (match prev with | none => true | some p => !isWordCh p) &&
         (b == 'b' || b == 'B') && (y == 'y' || y == 'Y') then
        let w := rest.takeWhile isSpaceCh
        if w.length = 0 then none
        else
          match (rest.drop w.length).head? with
          | some '.' => if 2 ≤ w.length then some (w.drop (w.length - 1)) else none
          | some _ => some ((rest.drop w.length).takeWhile (fun c => !(c == '.')))
          | none => if 2 ≤ w.length then some (w.drop (w.length - 1)) else none
      else none
  | _ => none

/-- Left-to-right scan of `re.search(r'\bby\s+([^\.]+?)(?:\.|$)', ...)`:
first matching position wins. -/
def byScan (prev : Option Char) : List Char → Option (List Char)
  | [] => none
  | c :: rest =>
      match byMatchAt prev (c :: rest) with
      | some g => some g
      | none => byScan (some c) rest

/-- Split a character list on `'/'` (every occurrence, keeping empty
fields), e.g. `"01/02/2020"` into `["01", "02", "2020"]`. -/
def splitSlash : List Char → List (List Char)
  | [] => [[]]
  | c :: cs =>
      if c == '/' then [] :: splitSlash cs
      else
        match splitSlash cs with
        | g :: gs => (c :: g) :: gs
        | [] => [[c]]

/-- Numeric value of a digit character. -/
def digitVal (c : Char) : Nat := c.toNat - 48

/-- Decimal value of a digit string (Python `int`). -/
def digitsToNat (l : List Char) : Nat := l.foldl (fun a c => 10 * a + digitVal c) 0

/-- Every character is an ASCII digit. -/
def allDigits (l : List Char) : Bool := l.all isDigitCh

/-- Gregorian leap year, as the `datetime` module computes it. -/
def isLeap (y : Nat) : Bool := y % 4 == 0 && (y % 100 != 0 || y % 400 == 0)

/-- Days in a month, as `datetime` validates day-of-month. -/
def daysInMonth (y m : Nat) : Nat :=
  if m == 2 then (if isLeap y then 29 else 28)
  else if m == 4 || m == 6 || m == 9 || m == 11 then 30
  else 31

/-- The ASCII digit character of a value below ten. -/
def digitChar : Nat → Char
  | 0 => '0' | 1 => '1' | 2 => '2' | 3 => '3' | 4 => '4'
  | 5 => '5' | 6 => '6' | 7 => '7' | 8 => '8' | 9 => '9'
  | _ => '0'

/-- Two-digit zero-padded decimal rendering (strftime `%m`, `%d`). -/
def twoDigits (n : Nat) : List Char := [digitChar (n / 10), digitChar (n % 10)]

/-- Four-digit zero-padded decimal rendering (strftime `%Y` as documented). -/
def fourDigits (n : Nat) : List Char :=
  [digitChar (n / 1000), digitChar (n / 100 % 10), digitChar (n / 10 % 10), digitChar (n % 10)]

/-- The ISO `YYYY-MM-DD` rendering produced by `strftime("%Y-%m-%d")`. -/
def isoDate (y m d : Nat) : String :=
  ⟨fourDigits y ++ '-' :: (twoDigits m ++ '-' :: twoDigits d)⟩

namespace LoadDocket

/-- `parse_date` of `archived/load_docket_entries.py` (lines 32-40):
`datetime.strptime(date_str, "%m/%d/%Y")` then `strftime("%Y-%m-%d")`, with
every failure (including the empty string, rejected up front) mapped to
`None` by the bare `except`.  For this fixed format, `strptime` accepts
exactly: a one- or two-digit month, `/`, a one- or two-digit day, `/`, an
exactly-four-digit year, with nothing before or after (trailing input is an
error), and the `datetime` constructor then requires `1 ≤ month ≤ 12`,
`1 ≤ day ≤ days-in-month` and `year ≥ 1`.  Splitting on `/` and checking the
three digit fields is equivalent: any extra or misplaced character makes
both reject.  `strftime` renders the date zero-padded. -/
def parse_date (s : String) : Option String :=
  if s = "" then none
  else
    match splitSlash s.data with
    | [ms, ds, ys] =>
        if allDigits ms && 1 ≤ ms.length && ms.length ≤ 2 &&
           allDigits ds && 1 ≤ ds.length && ds.length ≤ 2 &&
           allDigits ys && ys.length == 4 then
          let m := digitsToNat ms
          let d := digitsToNat ds
          let y := digitsToNat ys
          if 1 ≤ m && m ≤ 12 && 1 ≤ d && d ≤ daysInMonth y m && 1 ≤ y then
            some (isoDate y m d)
          else none
        else none
    | _ => none

/-- `extract_filed_by` of `archived/load_docket_entries.py` (lines 80-91):
group 1 of `\bby\s+([^\.]+?)(?:\.|$)` (case-insensitive), stripped, with
parenthetical asides replaced by spaces and stripped again, truncated to 255
characters; `None` when the pattern does not occur. -/
def extract_filed_by (text : String) : Option String :=
  match byScan none text.data with
  | none => none
  | some g =>
     let s1 := pyStrip ⟨g⟩
     let s2 := pyStrip ⟨removeParens s1.data⟩
     some (if s2.length > 255 then ⟨s2.data.take 255⟩ else s2)

/-- First bracketed run of at least ten digits: `extract_ecf_number` of
`archived/load_docket_entries.py` (lines 93-98). -/
def findEcf : List Char → Option String
  | [] => none
  | c :: rest =>
      if c == '[' then
        let run := rest.takeWhile isDigitCh
        if 10 ≤ run.length && (rest.drop run.length).head? == some ']' then some ⟨run⟩
        else findEcf rest
      else findEcf rest

/-- `extract_ecf_number` of `archived/load_docket_entries.py` (lines 93-98). -/
def extract_ecf_number (text : String) : Option String := findEcf text.data

/-- `get_title` of `archived/load_docket_entries.py` (lines 100-111): remove
bracketed case numbers and ECF tokens, collapse whitespace, truncate to 1000
characters with an ellipsis. -/
def get_title (text : String) : String :=
  let cleaned := collapseWs (removeEcfTok (removeCaseTok text.data))
  if cleaned.length > 1000 then ⟨cleaned.take 997 ++ ('.' :: '.' :: '.' :: [])⟩
  else ⟨cleaned⟩

end LoadDocket

/-- One `docketText` element of the source document: its three attributes,
as read by the loaders (`.get` with default `''`). -/
structure RawDocket where
  dateFiled : String
  text : String
  docLink : String
deriving DecidableEq, Repr

namespace LoadDocket

/-- One parsed docket entry of `archived/load_docket_entries.py` `main`
(lines 163-172): the dictionary built for each source event. -/
structure ParsedEntry where
  sequence_number : Nat
  date_filed : Option String
  type : String
  title : String
  description : String
  filed_by : Option String
  ecf_number : Option String
  doc_link : String
deriving DecidableEq, Repr

/-- The per-event body of the `enumerate(docket_texts, 1)` loop of `main`
(lines 146-173). -/
def mkEntry (idx : Nat) (t : RawDocket) : ParsedEntry :=
  { sequence_number := idx
    date_filed := parse_date t.dateFiled
    type := extract_type t.text
    title := get_title t.text
    description := t.text
    filed_by := extract_filed_by t.text
    ecf_number := extract_ecf_number t.text
    doc_link := t.docLink }

/-- The `enumerate(docket_texts, 1)` loop of `main` (lines 146-173): `i` is
the next 1-based index. -/
def parse_entries : Nat → List RawDocket → List ParsedEntry
  | _, [] => []
  | i, t :: ts => mkEntry i t :: parse_entries (i + 1) ts

end LoadDocket

namespace Pg8000

/-- One parsed entry of `parse_docket_entries` in
`archived/load_docket_entries_pg8000.py` (lines 134-163).  The source also
stores the normalized date, type, filed-by, ECF number and title (computed by
functions textually identical to the direct-write loader's, except a 500/497
title truncation); no claim reads those fields, so the model keeps the
sequence number and the text. -/
structure PgEntry where
  entry_number : Nat
  text : String
deriving DecidableEq, Repr

/-- `parse_docket_entries` of `archived/load_docket_entries_pg8000.py`
(lines 134-163): events with empty text are skipped, and the entry number is
`len(entries) + 1`, i.e. the running count of kept entries; `k` is the next
number to assign. -/
def parse_docket_entries : Nat → List RawDocket → List PgEntry
  | _, [] => []
  | k, t :: ts =>
      if t.text = "" then parse_docket_entries k ts
      else ⟨k, t.text⟩ :: parse_docket_entries (k + 1) ts

end Pg8000

theorem parse_entries_map_seq (i : Nat) (ts : List RawDocket) :
    (LoadDocket.parse_entries i ts).map (·.sequence_number) = List.range' i ts.length := by
  induction ts generalizing i with
  | nil => rfl
  | cons t ts ih =>
    simp [LoadDocket.parse_entries, LoadDocket.mkEntry, List.range'_succ, ih]

theorem pg_parse_map_seq (k : Nat) (ts : List RawDocket) (h : ∀ t ∈ ts, t.text ≠ "") :
    (Pg8000.parse_docket_entries k ts).map (·.entry_number) = List.range' k ts.length := by
  induction ts generalizing k with
  | nil => rfl
  | cons t ts ih =>
    rw [Pg8000.parse_docket_entries, if_neg (by simpa using h t (by simp))]
    simp only [List.map_cons, List.length_cons, List.range'_succ]
    rw [ih _ (fun x hx => h x (by simp [hx]))]

/-- C3: both loader variants assign 1-based, source-ordered sequence numbers:
the direct-write loader numbers the events `1..N` by `enumerate(_, 1)`, and
the pg8000 variant numbers the kept events by running count, which for a
source of N well-formed (non-empty-text) events is also exactly `1..N`; in
particular the sequence numbers are unique within the case. -/
theorem c3_sequence_numbers (ts : List RawDocket) :
    ((LoadDocket.parse_entries 1 ts).map (·.sequence_number) = List.range' 1 ts.length)
    ∧ ((LoadDocket.parse_entries 1 ts).map (·.sequence_number)).Nodup
    ∧ ((∀ t ∈ ts, t.text ≠ "") →
        (Pg8000.parse_docket_entries 1 ts).map (·.entry_number) = List.range' 1 ts.length) :=
  ⟨parse_entries_map_seq 1 ts,
   by rw [parse_entries_map_seq 1 ts]; exact List.nodup_range' 1 ts.length,
   pg_parse_map_seq 1 ts⟩

/-- C3 witness: two concrete well-formed events get sequence numbers 1, 2 in
both variants. -/
theorem c3_sequence_numbers_witness :
    ((LoadDocket.parse_entries 1
        [⟨"01/02/2020", "Motion to seal", "u"⟩, ⟨"01/03/2020", "Order granting", "v"⟩]).map
      (·.sequence_number) = [1, 2])
    ∧ ((Pg8000.parse_docket_entries 1
        [⟨"01/02/2020", "Motion to seal", "u"⟩, ⟨"01/03/2020", "Order granting", "v"⟩]).map
      (·.entry_number) = [1, 2]) :=
  ⟨(c3_sequence_numbers _).1,
   (c3_sequence_numbers _).2.2 (by decide)⟩

/-- One row of the `docket_entries` table as far as the claims read it: the
surrogate id, the owning case and the sequence number.  The data columns
(dates, type, title, description, filed-by, ECF number, sealed flag) are
also inserted by the source but no claim depends on them. -/
structure DocketRow where
  id : Nat
  case_id : String
  sequence_number : Nat
deriving DecidableEq, Repr

/-- `(case_id, sequence_number)` pair already present? (the existence check
of the pg8000 variant). -/
def hasKey (rows : List DocketRow) (c : String) (s : Nat) : Bool :=
  rows.any (fun r => r.case_id == c && r.sequence_number == s)

/-- Number of rows with a given `(case_id, sequence_number)` pair. -/
def countKey (rows : List DocketRow) (c : String) (s : Nat) : Nat :=
  (rows.filter (fun r => r.case_id == c && r.sequence_number == s)).length

namespace LoadDocket

/-- The insert loop of `main` in `archived/load_docket_entries.py` (lines
217-254): every entry is inserted unconditionally under a fresh id (the
counter models `uuid.uuid4()`, consumed once per iteration); a failure of the
insert (the oracle `fail` gives the message the database raises for a row, or
`none`) is caught, recorded as `"Entry {sequence_number}: {message}"`, and the
loop continues.  Returns (rows, next id, inserted count, error list). -/
def insert_loop (fail : ParsedEntry → Option String) :
    List DocketRow → Nat → String → List ParsedEntry →
      List DocketRow × Nat × Nat × List String
  | rows, ctr, _, [] => (rows, ctr, 0, [])
  | rows, ctr, c, e :: es =>
      match fail e with
      | some msg =>
          let r := insert_loop fail rows (ctr + 1) c es
          (r.1, r.2.1, r.2.2.1, ("Entry " ++ toString e.sequence_number ++ ": " ++ msg) :: r.2.2.2)
      | none =>
          let r := insert_loop fail (rows ++ [⟨ctr, c, e.sequence_number⟩]) (ctr + 1) c es
          (r.1, r.2.1, r.2.2.1 + 1, r.2.2.2)

end LoadDocket

namespace Pg8000

/-- `insert_docket_entries` of `archived/load_docket_entries_pg8000.py`
(lines 212-268): for each entry, if a row with the same
`(case_id, sequence_number)` already exists the insert is skipped, otherwise
the row is inserted under a fresh id.  Returns (rows, next id, inserted
count, skipped count). -/
def insert_docket_entries :
    List DocketRow → Nat → String → List PgEntry → List DocketRow × Nat × Nat × Nat
  | rows, ctr, _, [] => (rows, ctr, 0, 0)
  | rows, ctr, c, e :: es =>
      if hasKey rows c e.entry_number then
        let r := insert_docket_entries rows (ctr + 1) c es
        (r.1, r.2.1, r.2.2.1, r.2.2.2 + 1)
      else
        let r := insert_docket_entries (rows ++ [⟨ctr, c, e.entry_number⟩]) (ctr + 1) c es
        (r.1, r.2.1, r.2.2.1 + 1, r.2.2.2)

end Pg8000

theorem pg_insert_rows_append (rows : List DocketRow) (ctr : Nat) (c : String)
    (es : List Pg8000.PgEntry) :
    ∃ t, (Pg8000.insert_docket_entries rows ctr c es).1 = rows ++ t := by
  induction es generalizing rows ctr with
  | nil => exact ⟨[], by simp [Pg8000.insert_docket_entries]⟩
  | cons e es ih =>
    rw [Pg8000.insert_docket_entries]
    by_cases h : hasKey rows c e.entry_number
    · simpa [h] using ih rows (ctr + 1)
    · obtain ⟨t, ht⟩ := ih (rows ++ [⟨ctr, c, e.entry_number⟩]) (ctr + 1)
      exact ⟨⟨ctr, c, e.entry_number⟩ :: t, by simp [h, ht]⟩

theorem hasKey_append_left {rows : List DocketRow} {c : String} {s : Nat}
    (h : hasKey rows c s = true) (t : List DocketRow) : hasKey (rows ++ t) c s = true := by
  simp only [hasKey, List.any_append, Bool.or_eq_true]
  exact Or.inl h

theorem pg_insert_hasKey (rows : List DocketRow) (ctr : Nat) (c : String)
    (es : List Pg8000.PgEntry) {e : Pg8000.PgEntry} (he : e ∈ es) :
    hasKey (Pg8000.insert_docket_entries rows ctr c es).1 c e.entry_number = true := by
  induction es generalizing rows ctr with
  | nil => cases he
  | cons e' es ih =>
    rw [Pg8000.insert_docket_entries]
    rcases List.mem_cons.mp he with rfl | hmem
    · by_cases h : hasKey rows c e.entry_number
      · obtain ⟨t, ht⟩ := pg_insert_rows_append rows (ctr + 1) c es
        simpa [h, ht] using hasKey_append_left h t
      · obtain ⟨t, ht⟩ := pg_insert_rows_append (rows ++ [⟨ctr, c, e.entry_number⟩]) (ctr + 1) c es
        have hk : hasKey (rows ++ [(⟨ctr, c, e.entry_number⟩ : DocketRow)]) c e.entry_number = true := by
          simp [hasKey]
        simpa [h, ht] using hasKey_append_left hk t
    · by_cases h : hasKey rows c e'.entry_number
      · simpa [h] using ih rows (ctr + 1) hmem
      · simpa [h] using ih (rows ++ [⟨ctr, c, e'.entry_number⟩]) (ctr + 1) hmem

theorem pg_insert_all_present (rows : List DocketRow) (ctr : Nat) (c : String)
    (es : List Pg8000.PgEntry) (h : ∀ e ∈ es, hasKey rows c e.entry_number = true) :
    Pg8000.insert_docket_entries rows ctr c es = (rows, ctr + es.length, 0, es.length) := by
  induction es generalizing rows ctr with
  | nil => simp [Pg8000.insert_docket_entries]
  | cons e es ih =>
    rw [Pg8000.insert_docket_entries, if_pos (h e (by simp))]
    rw [ih rows (ctr + 1) (fun x hx => h x (by simp [hx]))]
    simp only [List.length_cons]
    have h2 : ctr + 1 + es.length = ctr + (es.length + 1) := by omega
    rw [h2]

theorem countKey_append (rows extra : List DocketRow) (c : String) (s : Nat) :
    countKey (rows ++ extra) c s = countKey rows c s + countKey extra c s := by
  simp [countKey, List.filter_append]

theorem main_loop_countKey (rows : List DocketRow) (ctr : Nat) (c : String)
    (es : List LoadDocket.ParsedEntry) (s : Nat) :
    countKey ((LoadDocket.insert_loop (fun _ => none) rows ctr c es).1) c s =
      countKey rows c s + es.countP (fun e => e.sequence_number == s) := by
  induction es generalizing rows ctr with
  | nil => simp [LoadDocket.insert_loop, countKey]
  | cons e es ih =>
    rw [LoadDocket.insert_loop]
    simp only []
    rw [ih, countKey_append, List.countP_cons]
    simp only [countKey, List.filter, List.filter_nil]
    rcases h : (e.sequence_number == s) with _ | _
    · simp [h]
    · simp [h]
      omega

/-- C10: on a store already holding the case's docket entries, the two
loader variants diverge.  The pg8000 variant skips every entry whose
`(case_id, sequence_number)` pair exists, so a re-run leaves the rows
unchanged, inserts nothing and reports every entry skipped; the main loader
inserts unconditionally under fresh ids, so each run adds one more copy of
every sequence number — after two runs from any starting store each sequence
number `s` has gained exactly `2 * (number of entries with sequence s)`
rows. -/
theorem c10_rerun_divergence (rows : List DocketRow) (ctr ctr2 : Nat) (c : String)
    (pes : List Pg8000.PgEntry) (es : List LoadDocket.ParsedEntry) (s : Nat) :
    (Pg8000.insert_docket_entries (Pg8000.insert_docket_entries rows ctr c pes).1 ctr2 c pes =
      ((Pg8000.insert_docket_entries rows ctr c pes).1, ctr2 + pes.length, 0, pes.length))
    ∧ (countKey ((LoadDocket.insert_loop (fun _ => none)
          ((LoadDocket.insert_loop (fun _ => none) rows ctr c es).1) ctr2 c es).1) c s =
        countKey rows c s + 2 * es.countP (fun e => e.sequence_number == s)) := by
  constructor
  · exact pg_insert_all_present _ ctr2 c pes
      (fun e he => pg_insert_hasKey rows ctr c pes he)
  · rw [main_loop_countKey, main_loop_countKey]
    omega

namespace GenSql

/-- `parse_date` of `archived/generate_docket_sql.py` (lines 17-25), textually
identical to the direct-write loader's; see `LoadDocket.parse_date` for the
modelling of `strptime`/`strftime`. -/
def parse_date (s : String) : Option String :=
  if s = "" then none
  else
    match splitSlash s.data with
    | [ms, ds, ys] =>
        if allDigits ms && 1 ≤ ms.length && ms.length ≤ 2 &&
           allDigits ds && 1 ≤ ds.length && ds.length ≤ 2 &&
           allDigits ys && ys.length == 4 then
          let m := digitsToNat ms
          let d := digitsToNat ds
          let y := digitsToNat ys
          if 1 ≤ m && m ≤ 12 && 1 ≤ d && d ≤ daysInMonth y m && 1 ≤ y then
            some (isoDate y m d)
          else none
        else none
    | _ => none

/-- `extract_type` of `archived/generate_docket_sql.py` (lines 27-63),
textually identical to the direct-write loader's rule chain. -/
def extract_type (text : String) : String :=
  let u := strUpper text
  if strContains u "CERTIFICATE OF SERVICE" || strContains u "CERT OF SERVICE" then "Certificate"
  else if strContains u "CERTIFICATE" then "Certificate"
  else if strContains u "MOTION" then "Motion"
  else if strContains u "ORDER" then "Order"
  else if strContains u "RESPONSE" || strContains u "OPPOSITION" then "Response"
  else if strContains u "REPLY" then "Reply"
  else if strContains u "NOTICE" then "Notice"
  else if strContains u "BRIEF" || strContains u "MEMORANDUM" then "Brief"
  else if strContains u "APPEAL" then "Appeal"
  else if strContains u "PETITION" then "Petition"
  else if strContains u "TRANSCRIPT" then "Transcript"
  else if strContains u "JUDGMENT" then "Judgment"
  else if strContains u "DOCKETING STATEMENT" then "Statement"
  else if strContains u "APPENDIX" then "Appendix"
  else if strContains u "EXHIBITS" || strContains u "EXHIBIT" then "Exhibit"
  else "Filing"

/-- `extract_filed_by` of `archived/generate_docket_sql.py` (lines 65-76),
textually identical to the direct-write loader's. -/
def extract_filed_by (text : String) : Option String :=
  match byScan none text.data with
  | none => none
  | some g =>
     let s1 := pyStrip ⟨g⟩
     let s2 := pyStrip ⟨removeParens s1.data⟩
     some (if s2.length > 255 then ⟨s2.data.take 255⟩ else s2)

/-- `extract_ecf_number` of `archived/generate_docket_sql.py` (lines 78-83),
textually identical to the direct-write loader's. -/
def extract_ecf_number (text : String) : Option String := LoadDocket.findEcf text.data

/-- `get_title` of `archived/generate_docket_sql.py` (lines 85-96), textually
identical to the direct-write loader's (same 1000/997 truncation). -/
def get_title (text : String) : String :=
  let cleaned := collapseWs (removeEcfTok (removeCaseTok text.data))
  if cleaned.length > 1000 then ⟨cleaned.take 997 ++ ('.' :: '.' :: '.' :: [])⟩
  else ⟨cleaned⟩

end GenSql

namespace Gen251229

/-- `infer_type` of `archived/scripts/generate_docket_entries_25_1229.py`
(lines 49-65): a different, shorter rule chain — note that Certificate of
Service maps to "Filing" here, and there is no Certificate result at all. -/
def infer_type (text : String) : String :=
  let u := strUpper text
  if strContains u "CERTIFICATE OF SERVICE" || strContains u "CERTIFICATE OF COMPLIANCE" then "Filing"
  else if strContains u "MOTION" then "Motion"
  else if strContains u "ORDER" || strContains u "COURT ORDER" then "Order"
  else if strContains u "NOTICE" then "Notice"
  else if strContains u "BRIEF" then "Filing"
  else if strContains u "JUDGMENT" then "Judgment"
  else if strContains u "DISCLOSURE STATEMENT" then "Filing"
  else "Filing"

end Gen251229

/-- C6: the direct-write loader (`archived/load_docket_entries.py`) and the
SQL-script generator for case 24-2160 (`archived/generate_docket_sql.py`)
implement identical normalization and classification logic: classified type,
parsed date, filed-by, ECF number and title agree on every text.  (The
pipe-delimited generator for case 25-1229 does not: see the counterexample.) -/
theorem c6_output_modes_agree (t : String) :
    GenSql.extract_type t = LoadDocket.extract_type t
    ∧ GenSql.parse_date t = LoadDocket.parse_date t
    ∧ GenSql.extract_filed_by t = LoadDocket.extract_filed_by t
    ∧ GenSql.extract_ecf_number t = LoadDocket.extract_ecf_number t
    ∧ GenSql.get_title t = LoadDocket.get_title t :=
  ⟨rfl, rfl, rfl, rfl, rfl⟩

/-- C6 counterexample: the 25-1229 SQL generator's classifier disagrees with
the direct-write loader's on a concrete docket text, so the two output modes
cited by the claim do not produce equal classified types for every text. -/
theorem c6_infer_type_counterexample :
    LoadDocket.extract_type "Certificate of Service" = "Certificate"
    ∧ Gen251229.infer_type "Certificate of Service" = "Filing"
    ∧ LoadDocket.extract_type "Certificate of Service" ≠
        Gen251229.infer_type "Certificate of Service" := by decide

namespace PartiesLoader

/-- One attorney record as extracted by `parse_xml_parties` of
`load_parties_attorneys.py` (lines 98-118).  The address attributes
(`address1`, `city`, `state`, `zip`) are also extracted by the source but are
never read downstream, so they are omitted from the model. -/
structure Attorney where
  firstName : String
  middleName : String
  lastName : String
  email : String
  businessPhone : String
  personalPhone : String
  office : String
deriving DecidableEq, Repr

/-- `full_name` as built by `parse_xml_parties` (lines 110-115): the nonempty
ones among firstName, middleName, lastName joined by single spaces. -/
def fullName (a : Attorney) : String :=
  String.intercalate " " ([a.firstName, a.middleName, a.lastName].filter (fun s => !s.isEmpty))

/-- Party type inference of `parse_xml_parties` (lines 84-88): "INC" or
"CLUB" in the upper-cased name means Corporation, otherwise Individual. -/
def inferPartyType (name : String) : String :=
  if strContains (strUpper name) "INC" || strContains (strUpper name) "CLUB" then "Corporation"
  else "Individual"

/-- The counsel-name computation inlined in `main` of
`load_parties_attorneys.py` (lines 316-322): comma-join the attorney full
names; with no attorneys, an Individual party gets "Pro Se" and any other
party gets null. -/
def counselNameFor (attorneyNames : List String) (ptype : String) : Option String :=
  let counsel := if attorneyNames.isEmpty then none
                 else some (String.intercalate ", " attorneyNames)
  if attorneyNames.isEmpty && (ptype == "Individual") then some "Pro Se" else counsel

/-- The email under which `insert_attorney_as_user` (lines 199-208) stores an
attorney: the stripped source email, or, when that is empty, the full name
lower-cased with spaces replaced by dots plus the fixed domain. -/
def storedEmail (a : Attorney) : String :=
  let email := pyStrip a.email
  if email = "" then spacesToDots (strLower (fullName a)) ++ "@law.example.com" else email

end PartiesLoader

/-- Modelled from the specification's words (§3, Attorney/User): "if the
source omits an email it is synthesized deterministically as
`lowercase(fullName with spaces→dots) + fixed-domain-suffix`". -/
def specSynthEmail (fullName : String) : String :=
  spacesToDots (strLower fullName) ++ "@law.example.com"

/-- C7: for a party linked to the case, the counsel name is the comma-joined
attorney full names when at least one attorney is listed, "Pro Se" when there
are none and the inferred type is Individual, and null when there are none
and the inferred type is Corporation. -/
theorem c7_counsel_name (name : String) (atts : List String) :
    (atts ≠ [] →
      PartiesLoader.counselNameFor atts (PartiesLoader.inferPartyType name) =
        some (String.intercalate ", " atts))
    ∧ (atts = [] → PartiesLoader.inferPartyType name = "Individual" →
      PartiesLoader.counselNameFor atts (PartiesLoader.inferPartyType name) = some "Pro Se")
    ∧ (atts = [] → PartiesLoader.inferPartyType name = "Corporation" →
      PartiesLoader.counselNameFor atts (PartiesLoader.inferPartyType name) = none) := by
  refine ⟨?_, ?_, ?_⟩
  · intro h
    simp [PartiesLoader.counselNameFor, List.isEmpty_iff, h]
  · intro h ht
    subst h
    rw [ht]
    simp [PartiesLoader.counselNameFor]
  · intro h ht
    subst h
    rw [ht]
    simp [PartiesLoader.counselNameFor]

/-- C7 witness: concrete parties for the three branches. -/
theorem c7_counsel_name_witness :
    PartiesLoader.counselNameFor ["Jane Doe"] (PartiesLoader.inferPartyType "ACME INC") =
      some "Jane Doe"
    ∧ PartiesLoader.counselNameFor [] (PartiesLoader.inferPartyType "JOHN SMITH") =
      some "Pro Se"
    ∧ PartiesLoader.counselNameFor [] (PartiesLoader.inferPartyType "ACME INC") = none :=
  ⟨(c7_counsel_name "ACME INC" ["Jane Doe"]).1 (by decide),
   (c7_counsel_name "JOHN SMITH" []).2.1 rfl (by decide),
   (c7_counsel_name "ACME INC" []).2.2 rfl (by decide)⟩

/-- C8: an attorney record whose email attribute is empty is stored under the
deterministic synthesized key `lowercase(fullName, spaces→dots)` plus the
fixed domain suffix `@law.example.com`; records with equal full names get
equal synthesized keys. -/
theorem c8_synthesized_email (a : PartiesLoader.Attorney) (h : a.email = "") :
    PartiesLoader.storedEmail a = specSynthEmail (PartiesLoader.fullName a)
    ∧ ∀ b : PartiesLoader.Attorney, b.email = "" →
        PartiesLoader.fullName b = PartiesLoader.fullName a →
        PartiesLoader.storedEmail b = PartiesLoader.storedEmail a := by
  constructor
  · rw [PartiesLoader.storedEmail, h]
    simp [specSynthEmail, pyStrip]
  · intro b hb hf
    rw [PartiesLoader.storedEmail, PartiesLoader.storedEmail, h, hb, hf]

/-- C8 witness: `firstName="Jane" lastName="Doe" email=""` synthesizes
`jane.doe@law.example.com`. -/
theorem c8_synthesized_email_witness :
    PartiesLoader.storedEmail ⟨"Jane", "", "Doe", "", "", "", ""⟩ =
      specSynthEmail (PartiesLoader.fullName ⟨"Jane", "", "Doe", "", "", "", ""⟩)
    ∧ PartiesLoader.fullName ⟨"Jane", "", "Doe", "", "", "", ""⟩ = "Jane Doe"
    ∧ specSynthEmail "Jane Doe" = "jane.doe@law.example.com" :=
  ⟨(c8_synthesized_email ⟨"Jane", "", "Doe", "", "", "", ""⟩ rfl).1, by decide, by decide⟩

/-- One row of the `cases` table as far as the claims read it: the id and
the natural key `case_number`. -/
structure CaseRow where
  id : String
  case_number : String
deriving DecidableEq, Repr

namespace PartiesLoader

/-- One row of the `parties` table (`id`, `name`, `type`). -/
structure PartyRow where
  id : Nat
  name : String
  ptype : String
deriving DecidableEq, Repr

/-- One row of the `case_parties` table; its composite natural key is
`(case_id, party_id)`. -/
structure CasePartyRow where
  case_id : String
  party_id : Nat
  role : String
  counsel_name : Option String
deriving DecidableEq, Repr

/-- One row of the `users` table as inserted by `insert_attorney_as_user`
(the constant `password_hash`, `role = 'attorney'` and `is_active` columns
are the same for every inserted row and are omitted). -/
structure UserRow where
  id : Nat
  email : String
  first_name : String
  last_name : String
  phone : String
  organization : String
deriving DecidableEq, Repr

/-- The relational store as `load_parties_attorneys.py` sees it. -/
structure DB where
  cases : List CaseRow
  parties : List PartyRow
  case_parties : List CasePartyRow
  users : List UserRow
deriving DecidableEq, Repr

/-- One party block as extracted by `parse_xml_parties` (lines 59-121):
`role` is the `type` attribute (stored as `type_description`, lines 77-92),
`ptype` is the Individual/Corporation guess the parse derives from the name
(`inferPartyType`), and `attorneys` keeps the nested records whose built
full name is nonempty (line 117). -/
structure PartyData where
  name : String
  role : String
  ptype : String
  attorneys : List Attorney
deriving DecidableEq, Repr

/-- `get_case_id` (lines 125-136): the id of the case with natural key
`24-2160`, or `None` — in which case the caller only warns and goes on. -/
def get_case_id (db : DB) : Option String :=
  (db.cases.find? (fun c => c.case_number == "24-2160")).map (·.id)

/-- `insert_party` (lines 138-171): find-or-create by exact name.  A fresh
id (the counter models `uuid.uuid4()`, drawn once per call as in the source)
is used only when the name is absent; on a hit the existing row's id is
returned and the store is untouched.  Returns (store, party id, next id). -/
def insert_party (db : DB) (ctr : Nat) (p : PartyData) : DB × Nat × Nat :=
  match db.parties.find? (fun r => r.name == p.name) with
  | some r => (db, r.id, ctr + 1)
  | none =>
      ({ db with parties := db.parties ++ [⟨ctr, p.name, p.ptype⟩] }, ctr, ctr + 1)

/-- `insert_case_party` (lines 173-197): skip when no case was resolved;
otherwise upsert keyed on `(case_id, party_id)` — the `ON CONFLICT` branch
overwrites `role` and `counsel_name` in place, the insert branch appends.
`failCP` models the caught per-row exception (line 194-195): the statement
raises, nothing changes, the error is only printed. -/
def insert_case_party (db : DB) (caseId : Option String) (partyId : Nat) (role : String)
    (counsel : Option String) (failCP : Bool) : DB :=
  match caseId with
  | none => db
  | some c =>
      if failCP then db
      else if db.case_parties.any (fun r => r.case_id == c && r.party_id == partyId) then
        { db with case_parties := db.case_parties.map (fun r =>
            if r.case_id == c && r.party_id == partyId then
              { r with role := role, counsel_name := counsel }
            else r) }
      else
        { db with case_parties := db.case_parties ++ [⟨c, partyId, role, counsel⟩] }

/-- The whitespace split of the full name used for `first_name`/`last_name`
(lines 222-224). -/
def nameParts (a : Attorney) : List String :=
  (splitWsAux (fullName a).data []).map (fun l => (⟨l⟩ : String))

/-- `insert_attorney_as_user` (lines 199-255): find-or-create by the (real
or synthesized) email.  `failA` models the caught insert exception (lines
251-252): the row is not stored, the error is only printed, and the function
still returns the fresh id.  Returns (store, user id, next id). -/
def insert_attorney_as_user (db : DB) (ctr : Nat) (a : Attorney) (firm : String)
    (failA : Bool) : DB × Nat × Nat :=
  let email := storedEmail a
  match db.users.find? (fun r => r.email == email) with
  | some r => (db, r.id, ctr + 1)
  | none =>
      if failA then (db, ctr, ctr + 1)
      else
        let parts := nameParts a
        let first := parts.headD ""
        let last := if parts.length > 1 then (parts.getLast?.getD "") else ""
        let phone := if a.businessPhone ≠ "" then a.businessPhone else a.personalPhone
        let org := if firm ≠ "" then firm else a.office
        ({ db with users := db.users ++ [⟨ctr, email, first, last, phone, org⟩] },
          ctr, ctr + 1)

/-- The body of the per-party loop of `main` (lines 306-330): insert the
party, link it to the case with the derived counsel name (`party_id` is
always truthy, so the link is attempted whenever a case id exists), then
insert each attorney as a user with the attorney's `office` as firm name. -/
def process_party (caseId : Option String) (failCP : PartyData → Bool)
    (failA : Attorney → Bool) (st : DB × Nat) (p : PartyData) : DB × Nat :=
  let r1 := insert_party st.1 st.2 p
  let counsel := counselNameFor (p.attorneys.map fullName) p.ptype
  let db2 := insert_case_party r1.1 caseId r1.2.1 p.role counsel (failCP p)
  p.attorneys.foldl
    (fun s a =>
      let r := insert_attorney_as_user s.1 s.2 a a.office (failA a)
      (r.1, r.2.2))
    (db2, r1.2.2)

/-- The final state and counters of one run of `main` (lines 302-330):
`parties_inserted` increments for every party (the fresh or found id is
always truthy), `attorneys_inserted` increments for every attorney record
whether or not its insert failed — `main` keeps no error list. -/
structure RunOut where
  db : DB
  ctr : Nat
  parties_inserted : Nat
  attorneys_inserted : Nat
deriving DecidableEq, Repr

/-- The whole per-party loop of `main` over the extracted party blocks. -/
def run_parties (db : DB) (ctr : Nat) (caseId : Option String) (ps : List PartyData)
    (failCP : PartyData → Bool) (failA : Attorney → Bool) : RunOut :=
  match ps with
  | [] => ⟨db, ctr, 0, 0⟩
  | p :: rest =>
      let s1 := process_party caseId failCP failA (db, ctr) p
      let r := run_parties s1.1 s1.2 caseId rest failCP failA
      ⟨r.db, r.ctr, r.parties_inserted + 1, r.attorneys_inserted + p.attorneys.length⟩

/-- `main` of `load_parties_attorneys.py` (lines 257-394) from the point the
store is reachable: resolve the case id (absence only warns), run the
per-party loop, commit, and return exit code 0 (`sys.exit(main())` with
`return 0`; only a connection failure — outside the store model — returns 1). -/
def parties_main (db : DB) (ctr : Nat) (ps : List PartyData)
    (failCP : PartyData → Bool) (failA : Attorney → Bool) : RunOut × Nat :=
  (run_parties db ctr (get_case_id db) ps failCP failA, 0)

end PartiesLoader

namespace LoadDocket

/-- The two tables `archived/load_docket_entries.py` touches. -/
structure DocketDB where
  cases : List CaseRow
  entries : List DocketRow
deriving DecidableEq, Repr

/-- `main` of `archived/load_docket_entries.py` from the case lookup on
(lines 198-254): if case `24-2160` is absent the function prints an error
and returns — nothing was inserted, no commit was issued, and since the
script calls `main()` with no `sys.exit` wiring the process exits 0; if the
case is found, the insert loop runs and one commit follows.  Returns the
final store and the process exit code. -/
def main_load (db : DocketDB) (ctr : Nat) (es : List ParsedEntry)
    (fail : ParsedEntry → Option String) : DocketDB × Nat :=
  match db.cases.find? (fun cr => cr.case_number == "24-2160") with
  | none => (db, 0)
  | some cr =>
      let r := insert_loop fail db.entries ctr cr.id es
      ({ db with entries := r.1 }, 0)

end LoadDocket

theorem insert_party_case_parties (db : PartiesLoader.DB) (ctr : Nat)
    (p : PartiesLoader.PartyData) :
    (PartiesLoader.insert_party db ctr p).1.case_parties = db.case_parties := by
  rcases h : db.parties.find? (fun r => r.name == p.name) with _ | r <;>
    simp [PartiesLoader.insert_party, h]

theorem insert_attorney_case_parties (db : PartiesLoader.DB) (ctr : Nat)
    (a : PartiesLoader.Attorney) (firm : String) (failA : Bool) :
    (PartiesLoader.insert_attorney_as_user db ctr a firm failA).1.case_parties =
      db.case_parties := by
  rcases h : db.users.find? (fun r => r.email == PartiesLoader.storedEmail a) with _ | r <;>
    cases failA <;> simp [PartiesLoader.insert_attorney_as_user, h]

theorem attorney_fold_case_parties (as : List PartiesLoader.Attorney)
    (failA : PartiesLoader.Attorney → Bool) (db : PartiesLoader.DB) (ctr : Nat) :
    (as.foldl
      (fun s a =>
        let r := PartiesLoader.insert_attorney_as_user s.1 s.2 a a.office (failA a)
        (r.1, r.2.2)) (db, ctr)).1.case_parties = db.case_parties := by
  induction as generalizing db ctr with
  | nil => rfl
  | cons a as ih =>
    rw [List.foldl_cons]
    exact (ih _ _).trans (insert_attorney_case_parties db ctr a a.office (failA a))

theorem process_party_none_case_parties (failCP : PartiesLoader.PartyData → Bool)
    (failA : PartiesLoader.Attorney → Bool) (db : PartiesLoader.DB) (ctr : Nat)
    (p : PartiesLoader.PartyData) :
    (PartiesLoader.process_party none failCP failA (db, ctr) p).1.case_parties =
      db.case_parties := by
  unfold PartiesLoader.process_party
  rw [attorney_fold_case_parties]
  show (PartiesLoader.insert_case_party _ none _ _ _ _).case_parties = _
  rw [PartiesLoader.insert_case_party]
  exact insert_party_case_parties db ctr p

theorem run_parties_none_case_parties (ps : List PartiesLoader.PartyData)
    (failCP : PartiesLoader.PartyData → Bool) (failA : PartiesLoader.Attorney → Bool)
    (db : PartiesLoader.DB) (ctr : Nat) :
    (PartiesLoader.run_parties db ctr none ps failCP failA).db.case_parties =
      db.case_parties := by
  induction ps generalizing db ctr with
  | nil => rfl
  | cons p ps ih =>
    rw [PartiesLoader.run_parties]
    exact (ih _ _).trans (process_party_none_case_parties failCP failA db ctr p)

/-- C2: what actually happens when the referenced case number is absent from
the store.  The docket-entries loader aborts before any write — the store is
returned unchanged — but the process exits with code 0, not non-zero (`main`
just returns; there is no `sys.exit` wiring).  The parties loader does not
abort at all: it warns, keeps running with no case link (so the case-party
table is untouched), commits whatever party/attorney writes it made, and
exits 0. -/
theorem c2_case_not_found (db : LoadDocket.DocketDB) (ctr : Nat)
    (es : List LoadDocket.ParsedEntry) (fail : LoadDocket.ParsedEntry → Option String)
    (pdb : PartiesLoader.DB) (ctr2 : Nat) (ps : List PartiesLoader.PartyData)
    (failCP : PartiesLoader.PartyData → Bool) (failA : PartiesLoader.Attorney → Bool) :
    (db.cases.find? (fun cr => cr.case_number == "24-2160") = none →
      LoadDocket.main_load db ctr es fail = (db, 0))
    ∧ (PartiesLoader.get_case_id pdb = none →
      (PartiesLoader.parties_main pdb ctr2 ps failCP failA).1.db.case_parties =
          pdb.case_parties
      ∧ (PartiesLoader.parties_main pdb ctr2 ps failCP failA).2 = 0) := by
  constructor
  · intro h
    rw [LoadDocket.main_load, h]
  · intro h
    refine ⟨?_, rfl⟩
    rw [PartiesLoader.parties_main, h]
    exact run_parties_none_case_parties ps failCP failA pdb ctr2

/-- C2 witness: empty stores without case `24-2160`. -/
theorem c2_case_not_found_witness :
    LoadDocket.main_load ⟨[], []⟩ 0 [] (fun _ => none) = (⟨[], []⟩, 0)
    ∧ (PartiesLoader.parties_main ⟨[], [], [], []⟩ 0
        [⟨"JOHN SMITH", "Appellant", "Individual", []⟩]
        (fun _ => false) (fun _ => false)).1.db.case_parties = []
    ∧ (PartiesLoader.parties_main ⟨[], [], [], []⟩ 0
        [⟨"JOHN SMITH", "Appellant", "Individual", []⟩]
        (fun _ => false) (fun _ => false)).2 = 0 :=
  ⟨(c2_case_not_found ⟨[], []⟩ 0 [] (fun _ => none) ⟨[], [], [], []⟩ 0 [] (fun _ => false)
      (fun _ => false)).1 rfl,
   (c2_case_not_found ⟨[], []⟩ 0 [] (fun _ => none) ⟨[], [], [], []⟩ 0
      [⟨"JOHN SMITH", "Appellant", "Individual", []⟩] (fun _ => false) (fun _ => false)).2
      rfl |>.1,
   (c2_case_not_found ⟨[], []⟩ 0 [] (fun _ => none) ⟨[], [], [], []⟩ 0
      [⟨"JOHN SMITH", "Appellant", "Individual", []⟩] (fun _ => false) (fun _ => false)).2
      rfl |>.2⟩

/-- C2 counterexample: with the case absent, the claim demands zero committed
writes and a non-zero exit.  On a concrete run the parties loader commits a
party row (the store changes) and both loaders exit 0. -/
theorem c2_case_not_found_counterexample :
    (LoadDocket.main_load ⟨[], []⟩ 0 [] (fun _ => none)).2 = 0
    ∧ (PartiesLoader.parties_main ⟨[], [], [], []⟩ 0
        [⟨"JOHN SMITH", "Appellant", "Individual", []⟩]
        (fun _ => false) (fun _ => false)).1.db ≠ (⟨[], [], [], []⟩ : PartiesLoader.DB)
    ∧ (PartiesLoader.parties_main ⟨[], [], [], []⟩ 0
        [⟨"JOHN SMITH", "Appellant", "Individual", []⟩]
        (fun _ => false) (fun _ => false)).2 = 0 := by
  refine ⟨rfl, ?_, rfl⟩
  decide

theorem insert_loop_counts (fail : LoadDocket.ParsedEntry → Option String)
    (rows : List DocketRow) (ctr : Nat) (c : String) (es : List LoadDocket.ParsedEntry) :
    (LoadDocket.insert_loop fail rows ctr c es).2.2.1 +
        (LoadDocket.insert_loop fail rows ctr c es).2.2.2.length = es.length := by
  induction es generalizing rows ctr with
  | nil => rfl
  | cons e es ih =>
    rw [LoadDocket.insert_loop]
    rcases h : fail e with _ | msg
    · have := ih (rows ++ [⟨ctr, c, e.sequence_number⟩]) (ctr + 1)
      simp only [List.length_cons]
      omega
    · have := ih rows (ctr + 1)
      simp only [List.length_cons]
      omega

theorem insert_loop_error_list (fail : LoadDocket.ParsedEntry → Option String)
    (rows : List DocketRow) (ctr : Nat) (c : String) (es : List LoadDocket.ParsedEntry) :
    (LoadDocket.insert_loop fail rows ctr c es).2.2.2 =
      es.filterMap (fun e => (fail e).map
        (fun m => "Entry " ++ toString e.sequence_number ++ ": " ++ m)) := by
  induction es generalizing rows ctr with
  | nil => rfl
  | cons e es ih =>
    rw [LoadDocket.insert_loop, List.filterMap_cons]
    rcases h : fail e with _ | msg <;> simp [h, ih]

theorem run_parties_attorney_count (ps : List PartiesLoader.PartyData)
    (db : PartiesLoader.DB) (ctr : Nat) (caseId : Option String)
    (failCP : PartiesLoader.PartyData → Bool) (failA : PartiesLoader.Attorney → Bool) :
    (PartiesLoader.run_parties db ctr caseId ps failCP failA).attorneys_inserted =
      (ps.map (fun p => p.attorneys.length)).sum := by
  induction ps generalizing db ctr with
  | nil => rfl
  | cons p ps ih =>
    rw [PartiesLoader.run_parties]
    simp only [List.map_cons, List.sum_cons]
    rw [ih]
    omega

/-- C9: how per-row failures are actually handled.  In the docket-entries
loader every failing row is caught, one error string carrying the offending
row's sequence number is appended per failure, the loop continues, and
successes plus recorded errors always account for every record.  In the
parties loader, however, the caught attorney-insert failures are only
printed: the run keeps no error list, and its reported `attorneys_inserted`
counter equals the total number of attorney records no matter which inserts
failed — so there a failure is counted as if it were a success. -/
theorem c9_error_collection (fail : LoadDocket.ParsedEntry → Option String)
    (rows : List DocketRow) (ctr : Nat) (c : String) (es : List LoadDocket.ParsedEntry)
    (ps : List PartiesLoader.PartyData) (db : PartiesLoader.DB) (ctr2 : Nat)
    (caseId : Option String) (failCP : PartiesLoader.PartyData → Bool)
    (failA : PartiesLoader.Attorney → Bool) :
    ((LoadDocket.insert_loop fail rows ctr c es).2.2.1 +
        (LoadDocket.insert_loop fail rows ctr c es).2.2.2.length = es.length)
    ∧ ((LoadDocket.insert_loop fail rows ctr c es).2.2.2 =
        es.filterMap (fun e => (fail e).map
          (fun m => "Entry " ++ toString e.sequence_number ++ ": " ++ m)))
    ∧ ((PartiesLoader.run_parties db ctr2 caseId ps failCP failA).attorneys_inserted =
        (ps.map (fun p => p.attorneys.length)).sum) :=
  ⟨insert_loop_counts fail rows ctr c es,
   insert_loop_error_list fail rows ctr c es,
   run_parties_attorney_count ps db ctr2 caseId failCP failA⟩

/-- C9 counterexample: in the parties loader a concrete failing attorney
insert stores no row, yet the run's surfaced report counts it as an inserted
attorney and records no error anywhere — contradicting the claim that every
non-fatal per-row failure is appended to an error list surfaced in the
final report. -/
theorem c9_error_collection_counterexample :
    (PartiesLoader.run_parties ⟨[⟨"cid", "24-2160"⟩], [], [], []⟩ 0 (some "cid")
        [⟨"ACME INC", "Appellant", "Corporation", [⟨"Jane", "", "Doe", "", "", "", ""⟩]⟩]
        (fun _ => false) (fun _ => true)).db.users = []
    ∧ (PartiesLoader.run_parties ⟨[⟨"cid", "24-2160"⟩], [], [], []⟩ 0 (some "cid")
        [⟨"ACME INC", "Appellant", "Corporation", [⟨"Jane", "", "Doe", "", "", "", ""⟩]⟩]
        (fun _ => false) (fun _ => true)).attorneys_inserted = 1 := by
  constructor
  · decide
  · decide

/-- The composite natural keys of the case-party rows, in row order. -/
def cpKeys (rows : List PartiesLoader.CasePartyRow) : List (String × Nat) :=
  rows.map (fun r => (r.case_id, r.party_id))

theorem cp_any_iff_mem (rows : List PartiesLoader.CasePartyRow) (c : String) (pid : Nat) :
    rows.any (fun r => r.case_id == c && r.party_id == pid) = true ↔ (c, pid) ∈ cpKeys rows := by
  simp [cpKeys, List.any_eq_true, Bool.and_eq_true, List.mem_map, Prod.ext_iff]

theorem insert_party_parties_append (db : PartiesLoader.DB) (ctr : Nat)
    (p : PartiesLoader.PartyData) :
    ∃ t, (PartiesLoader.insert_party db ctr p).1.parties = db.parties ++ t := by
  rcases h : db.parties.find? (fun r => r.name == p.name) with _ | r
  · exact ⟨[⟨ctr, p.name, p.ptype⟩], by simp [PartiesLoader.insert_party, h]⟩
  · exact ⟨[], by simp [PartiesLoader.insert_party, h]⟩

theorem insert_case_party_parties (db : PartiesLoader.DB) (caseId : Option String)
    (pid : Nat) (role : String) (counsel : Option String) (failCP : Bool) :
    (PartiesLoader.insert_case_party db caseId pid role counsel failCP).parties =
      db.parties := by
  rcases caseId with _ | c
  · rfl
  · rw [PartiesLoader.insert_case_party]
    by_cases hf : failCP
    · simp [hf]
    · by_cases h : db.case_parties.any (fun r => r.case_id == c && r.party_id == pid) <;>
        simp [hf, h]

theorem insert_attorney_parties (db : PartiesLoader.DB) (ctr : Nat)
    (a : PartiesLoader.Attorney) (firm : String) (failA : Bool) :
    (PartiesLoader.insert_attorney_as_user db ctr a firm failA).1.parties = db.parties := by
  rcases h : db.users.find? (fun r => r.email == PartiesLoader.storedEmail a) with _ | r <;>
    cases failA <;> simp [PartiesLoader.insert_attorney_as_user, h]

theorem attorney_fold_parties (as : List PartiesLoader.Attorney)
    (failA : PartiesLoader.Attorney → Bool) (db : PartiesLoader.DB) (ctr : Nat) :
    (as.foldl
      (fun s a =>
        let r := PartiesLoader.insert_attorney_as_user s.1 s.2 a a.office (failA a)
        (r.1, r.2.2)) (db, ctr)).1.parties = db.parties := by
  induction as generalizing db ctr with
  | nil => rfl
  | cons a as ih =>
    rw [List.foldl_cons]
    exact (ih _ _).trans (insert_attorney_parties db ctr a a.office (failA a))

theorem process_party_parties_append (caseId : Option String)
    (failCP : PartiesLoader.PartyData → Bool) (failA : PartiesLoader.Attorney → Bool)
    (db : PartiesLoader.DB) (ctr : Nat) (p : PartiesLoader.PartyData) :
    ∃ t, (PartiesLoader.process_party caseId failCP failA (db, ctr) p).1.parties =
      db.parties ++ t := by
  unfold PartiesLoader.process_party
  obtain ⟨t, ht⟩ := insert_party_parties_append db ctr p
  exact ⟨t, by rw [attorney_fold_parties, insert_case_party_parties, ht]⟩

theorem run_parties_parties_append (ps : List PartiesLoader.PartyData)
    (db : PartiesLoader.DB) (ctr : Nat) (caseId : Option String)
    (failCP : PartiesLoader.PartyData → Bool) (failA : PartiesLoader.Attorney → Bool) :
    ∃ t, (PartiesLoader.run_parties db ctr caseId ps failCP failA).db.parties =
      db.parties ++ t := by
  induction ps generalizing db ctr with
  | nil => exact ⟨[], by simp [PartiesLoader.run_parties]⟩
  | cons p ps ih =>
    rw [PartiesLoader.run_parties]
    obtain ⟨t1, ht1⟩ := process_party_parties_append caseId failCP failA db ctr p
    obtain ⟨t2, ht2⟩ :=
      ih (PartiesLoader.process_party caseId failCP failA (db, ctr) p).1
         (PartiesLoader.process_party caseId failCP failA (db, ctr) p).2
    exact ⟨t1 ++ t2, by simp [ht2, ht1]⟩

theorem insert_case_party_cpKeys_append (db : PartiesLoader.DB) (caseId : Option String)
    (pid : Nat) (role : String) (counsel : Option String) (failCP : Bool) :
    ∃ t, cpKeys (PartiesLoader.insert_case_party db caseId pid role counsel failCP).case_parties =
      cpKeys db.case_parties ++ t := by
  rcases caseId with _ | c
  · exact ⟨[], by simp [PartiesLoader.insert_case_party]⟩
  · cases failCP
    · by_cases h : db.case_parties.any (fun r => r.case_id == c && r.party_id == pid)
      · refine ⟨[], ?_⟩
        rw [PartiesLoader.insert_case_party]
        simp only [Bool.false_eq_true, if_false, h, if_true, List.append_nil, cpKeys,
          List.map_map]
        apply List.map_congr_left
        intro r _
        by_cases hr : r.case_id = c ∧ r.party_id = pid <;> simp [hr]
      · exact ⟨[(c, pid)], by simp [PartiesLoader.insert_case_party, h, cpKeys]⟩
    · exact ⟨[], by simp [PartiesLoader.insert_case_party]⟩

theorem process_party_cpKeys_append (caseId : Option String)
    (failCP : PartiesLoader.PartyData → Bool) (failA : PartiesLoader.Attorney → Bool)
    (db : PartiesLoader.DB) (ctr : Nat) (p : PartiesLoader.PartyData) :
    ∃ t, cpKeys (PartiesLoader.process_party caseId failCP failA (db, ctr) p).1.case_parties =
      cpKeys db.case_parties ++ t := by
  unfold PartiesLoader.process_party
  rw [attorney_fold_case_parties]
  obtain ⟨t, ht⟩ := insert_case_party_cpKeys_append
    (PartiesLoader.insert_party db ctr p).1 caseId
    (PartiesLoader.insert_party db ctr p).2.1 p.role
    (PartiesLoader.counselNameFor (p.attorneys.map PartiesLoader.fullName) p.ptype) (failCP p)
  refine ⟨t, ?_⟩
  rw [ht]
  rcases h : db.parties.find? (fun r => r.name == p.name) with _ | r <;>
    simp [PartiesLoader.insert_party, h]

theorem run_parties_cpKeys_append (ps : List PartiesLoader.PartyData)
    (db : PartiesLoader.DB) (ctr : Nat) (caseId : Option String)
    (failCP : PartiesLoader.PartyData → Bool) (failA : PartiesLoader.Attorney → Bool) :
    ∃ t, cpKeys (PartiesLoader.run_parties db ctr caseId ps failCP failA).db.case_parties =
      cpKeys db.case_parties ++ t := by
  induction ps generalizing db ctr with
  | nil => exact ⟨[], by simp [PartiesLoader.run_parties]⟩
  | cons p ps ih =>
    rw [PartiesLoader.run_parties]
    obtain ⟨t1, ht1⟩ := process_party_cpKeys_append caseId failCP failA db ctr p
    obtain ⟨t2, ht2⟩ :=
      ih (PartiesLoader.process_party caseId failCP failA (db, ctr) p).1
         (PartiesLoader.process_party caseId failCP failA (db, ctr) p).2
    exact ⟨t1 ++ t2, by simp [ht2, ht1]⟩

theorem insert_party_names_nodup (db : PartiesLoader.DB) (ctr : Nat)
    (p : PartiesLoader.PartyData) (h : (db.parties.map (·.name)).Nodup) :
    ((PartiesLoader.insert_party db ctr p).1.parties.map (·.name)).Nodup := by
  rcases hf : db.parties.find? (fun r => r.name == p.name) with _ | r
  · have hnot : p.name ∉ db.parties.map (·.name) := by
      rw [List.find?_eq_none] at hf
      simp only [List.mem_map]
      rintro ⟨q, hq, hqe⟩
      exact absurd (by simp [hqe] : (q.name == p.name) = true) (hf q hq)
    simp [PartiesLoader.insert_party, hf, List.nodup_append, h, hnot]
  · simpa [PartiesLoader.insert_party, hf] using h

theorem process_party_names_nodup (caseId : Option String)
    (failCP : PartiesLoader.PartyData → Bool) (failA : PartiesLoader.Attorney → Bool)
    (db : PartiesLoader.DB) (ctr : Nat) (p : PartiesLoader.PartyData)
    (h : (db.parties.map (·.name)).Nodup) :
    ((PartiesLoader.process_party caseId failCP failA (db, ctr) p).1.parties.map (·.name)).Nodup := by
  unfold PartiesLoader.process_party
  rw [attorney_fold_parties, insert_case_party_parties]
  exact insert_party_names_nodup db ctr p h

theorem run_parties_names_nodup (ps : List PartiesLoader.PartyData)
    (db : PartiesLoader.DB) (ctr : Nat) (caseId : Option String)
    (failCP : PartiesLoader.PartyData → Bool) (failA : PartiesLoader.Attorney → Bool)
    (h : (db.parties.map (·.name)).Nodup) :
    ((PartiesLoader.run_parties db ctr caseId ps failCP failA).db.parties.map (·.name)).Nodup := by
  induction ps generalizing db ctr with
  | nil => simpa [PartiesLoader.run_parties] using h
  | cons p ps ih =>
    rw [PartiesLoader.run_parties]
    exact ih _ _ (process_party_names_nodup caseId failCP failA db ctr p h)

theorem insert_case_party_cpKeys_of_mem (db : PartiesLoader.DB) (c : String) (pid : Nat)
    (role : String) (counsel : Option String)
    (h : db.case_parties.any (fun r => r.case_id == c && r.party_id == pid) = true) :
    cpKeys (PartiesLoader.insert_case_party db (some c) pid role counsel false).case_parties =
      cpKeys db.case_parties := by
  rw [PartiesLoader.insert_case_party]
  simp only [Bool.false_eq_true, if_false, h, if_true, cpKeys, List.map_map]
  apply List.map_congr_left
  intro r _
  by_cases hr : r.case_id = c ∧ r.party_id = pid <;> simp [hr]

theorem insert_case_party_cpKeys_nodup (db : PartiesLoader.DB) (caseId : Option String)
    (pid : Nat) (role : String) (counsel : Option String) (failCP : Bool)
    (h : (cpKeys db.case_parties).Nodup) :
    (cpKeys (PartiesLoader.insert_case_party db caseId pid role counsel failCP).case_parties).Nodup := by
  rcases caseId with _ | c
  · simpa [PartiesLoader.insert_case_party] using h
  · cases failCP
    · by_cases hm : db.case_parties.any (fun r => r.case_id == c && r.party_id == pid)
      · rw [insert_case_party_cpKeys_of_mem db c pid role counsel hm]
        exact h
      · have hnot : (c, pid) ∉ cpKeys db.case_parties := by
          intro hmem
          exact hm ((cp_any_iff_mem db.case_parties c pid).mpr hmem)
        rw [PartiesLoader.insert_case_party]
        simp [hm, cpKeys, List.nodup_append]
        constructor
        · simpa [cpKeys] using h
        · simpa [cpKeys] using hnot
    · simpa [PartiesLoader.insert_case_party] using h

theorem process_party_cpKeys_nodup (caseId : Option String)
    (failCP : PartiesLoader.PartyData → Bool) (failA : PartiesLoader.Attorney → Bool)
    (db : PartiesLoader.DB) (ctr : Nat) (p : PartiesLoader.PartyData)
    (h : (cpKeys db.case_parties).Nodup) :
    (cpKeys (PartiesLoader.process_party caseId failCP failA (db, ctr) p).1.case_parties).Nodup := by
  unfold PartiesLoader.process_party
  rw [attorney_fold_case_parties]
  apply insert_case_party_cpKeys_nodup
  rw [insert_party_case_parties]
  exact h

theorem run_parties_cpKeys_nodup (ps : List PartiesLoader.PartyData)
    (db : PartiesLoader.DB) (ctr : Nat) (caseId : Option String)
    (failCP : PartiesLoader.PartyData → Bool) (failA : PartiesLoader.Attorney → Bool)
    (h : (cpKeys db.case_parties).Nodup) :
    (cpKeys (PartiesLoader.run_parties db ctr caseId ps failCP failA).db.case_parties).Nodup := by
  induction ps generalizing db ctr with
  | nil => simpa [PartiesLoader.run_parties] using h
  | cons p ps ih =>
    rw [PartiesLoader.run_parties]
    exact ih _ _ (process_party_cpKeys_nodup caseId failCP failA db ctr p h)

theorem find?_append_some {α : Type} (l t : List α) (p : α → Bool) (r : α)
    (h : l.find? p = some r) : (l ++ t).find? p = some r := by
  rw [List.find?_append, h]
  rfl

theorem insert_party_find (db : PartiesLoader.DB) (ctr : Nat) (p : PartiesLoader.PartyData) :
    ∃ row, (PartiesLoader.insert_party db ctr p).1.parties.find?
        (fun r => r.name == p.name) = some row
      ∧ row.id = (PartiesLoader.insert_party db ctr p).2.1 := by
  rcases hf : db.parties.find? (fun q => q.name == p.name) with _ | r
  · refine ⟨⟨ctr, p.name, p.ptype⟩, ?_, by simp [PartiesLoader.insert_party, hf]⟩
    simp only [PartiesLoader.insert_party, hf]
    rw [List.find?_append, hf]
    simp [List.find?]
  · exact ⟨r, by simp [PartiesLoader.insert_party, hf],
      by simp [PartiesLoader.insert_party, hf]⟩

theorem process_party_parties_eq_insert (caseId : Option String)
    (failCP : PartiesLoader.PartyData → Bool) (failA : PartiesLoader.Attorney → Bool)
    (db : PartiesLoader.DB) (ctr : Nat) (p : PartiesLoader.PartyData) :
    (PartiesLoader.process_party caseId failCP failA (db, ctr) p).1.parties =
      (PartiesLoader.insert_party db ctr p).1.parties := by
  unfold PartiesLoader.process_party
  rw [attorney_fold_parties, insert_case_party_parties]

theorem run_parties_find_isSome (ps : List PartiesLoader.PartyData)
    (db : PartiesLoader.DB) (ctr : Nat) (caseId : Option String)
    (failCP : PartiesLoader.PartyData → Bool) (failA : PartiesLoader.Attorney → Bool) :
    ∀ p ∈ ps, ((PartiesLoader.run_parties db ctr caseId ps failCP failA).db.parties.find?
        (fun r => r.name == p.name)).isSome := by
  induction ps generalizing db ctr with
  | nil => intro p hp; cases hp
  | cons q rest ih =>
    intro p hp
    rw [PartiesLoader.run_parties]
    rcases List.mem_cons.mp hp with rfl | hmem
    · obtain ⟨row, hfind, _⟩ := insert_party_find db ctr p
      obtain ⟨t, ht⟩ := run_parties_parties_append rest
        (PartiesLoader.process_party caseId failCP failA (db, ctr) p).1
        (PartiesLoader.process_party caseId failCP failA (db, ctr) p).2 caseId failCP failA
      have hfind2 : (PartiesLoader.process_party caseId failCP failA (db, ctr) p).1.parties.find?
          (fun r => r.name == p.name) = some row := by
        rw [process_party_parties_eq_insert]
        exact hfind
      simp only [ht]
      rw [find?_append_some _ t _ row hfind2]
      rfl
    · exact ih _ _ p hmem

theorem insert_case_party_key_mem (db : PartiesLoader.DB) (c : String) (pid : Nat)
    (role : String) (counsel : Option String) :
    (c, pid) ∈ cpKeys (PartiesLoader.insert_case_party db (some c) pid role counsel false).case_parties := by
  by_cases hm : db.case_parties.any (fun r => r.case_id == c && r.party_id == pid)
  · rw [insert_case_party_cpKeys_of_mem db c pid role counsel hm]
    exact (cp_any_iff_mem db.case_parties c pid).mp hm
  · rw [PartiesLoader.insert_case_party]
    simp [hm, cpKeys]

theorem process_party_cp_eq (caseId : Option String)
    (failCP : PartiesLoader.PartyData → Bool) (failA : PartiesLoader.Attorney → Bool)
    (db : PartiesLoader.DB) (ctr : Nat) (p : PartiesLoader.PartyData) :
    (PartiesLoader.process_party caseId failCP failA (db, ctr) p).1.case_parties =
      (PartiesLoader.insert_case_party (PartiesLoader.insert_party db ctr p).1 caseId
        (PartiesLoader.insert_party db ctr p).2.1 p.role
        (PartiesLoader.counselNameFor (p.attorneys.map PartiesLoader.fullName) p.ptype)
        (failCP p)).case_parties := by
  unfold PartiesLoader.process_party
  rw [attorney_fold_case_parties]

theorem run_parties_key_present (ps : List PartiesLoader.PartyData)
    (db : PartiesLoader.DB) (ctr : Nat) (c : String)
    (failCP : PartiesLoader.PartyData → Bool) (failA : PartiesLoader.Attorney → Bool) :
    ∀ p ∈ ps, failCP p = false →
      ∃ row, (PartiesLoader.run_parties db ctr (some c) ps failCP failA).db.parties.find?
          (fun r => r.name == p.name) = some row
        ∧ (c, row.id) ∈
            cpKeys (PartiesLoader.run_parties db ctr (some c) ps failCP failA).db.case_parties := by
  induction ps generalizing db ctr with
  | nil => intro p hp; cases hp
  | cons q rest ih =>
    intro p hp hfcp
    rw [PartiesLoader.run_parties]
    rcases List.mem_cons.mp hp with rfl | hmem
    · obtain ⟨row, hfind, hid⟩ := insert_party_find db ctr p
      refine ⟨row, ?_, ?_⟩
      · obtain ⟨t, ht⟩ := run_parties_parties_append rest
          (PartiesLoader.process_party (some c) failCP failA (db, ctr) p).1
          (PartiesLoader.process_party (some c) failCP failA (db, ctr) p).2 (some c) failCP failA
        simp only [ht]
        apply find?_append_some
        rw [process_party_parties_eq_insert]
        exact hfind
      · obtain ⟨t, ht⟩ := run_parties_cpKeys_append rest
          (PartiesLoader.process_party (some c) failCP failA (db, ctr) p).1
          (PartiesLoader.process_party (some c) failCP failA (db, ctr) p).2 (some c) failCP failA
        simp only [ht]
        apply List.mem_append_left
        rw [process_party_cp_eq, hid, hfcp]
        exact insert_case_party_key_mem (PartiesLoader.insert_party db ctr p).1 c
          (PartiesLoader.insert_party db ctr p).2.1 p.role
          (PartiesLoader.counselNameFor (p.attorneys.map PartiesLoader.fullName) p.ptype)
    · exact ih _ _ p hmem hfcp

theorem process_party_stable (caseId : Option String)
    (failCP : PartiesLoader.PartyData → Bool) (failA : PartiesLoader.Attorney → Bool)
    (db : PartiesLoader.DB) (ctr : Nat) (p : PartiesLoader.PartyData) (row : PartiesLoader.PartyRow)
    (hrow : db.parties.find? (fun r => r.name == p.name) = some row)
    (hkey : ∀ c, caseId = some c → failCP p = false → (c, row.id) ∈ cpKeys db.case_parties) :
    (PartiesLoader.process_party caseId failCP failA (db, ctr) p).1.parties = db.parties
    ∧ cpKeys (PartiesLoader.process_party caseId failCP failA (db, ctr) p).1.case_parties =
        cpKeys db.case_parties := by
  have hins : PartiesLoader.insert_party db ctr p = (db, row.id, ctr + 1) := by
    rw [PartiesLoader.insert_party, hrow]
  constructor
  · rw [process_party_parties_eq_insert, hins]
  · rw [process_party_cp_eq, hins]
    rcases caseId with _ | c
    · rfl
    · rcases hf : failCP p with _ | _
      · have hmem := hkey c rfl hf
        have hany := (cp_any_iff_mem db.case_parties c row.id).mpr hmem
        exact insert_case_party_cpKeys_of_mem db c row.id _ _ hany
      · rw [PartiesLoader.insert_case_party]
        simp

theorem run_parties_stable (ps : List PartiesLoader.PartyData)
    (db : PartiesLoader.DB) (ctr : Nat) (caseId : Option String)
    (failCP : PartiesLoader.PartyData → Bool) (failA : PartiesLoader.Attorney → Bool)
    (hname : ∀ p ∈ ps, ((db.parties.find? (fun r => r.name == p.name)).isSome))
    (hkey : ∀ p ∈ ps, ∀ c, caseId = some c → failCP p = false →
      ∀ row, db.parties.find? (fun r => r.name == p.name) = some row →
        (c, row.id) ∈ cpKeys db.case_parties) :
    (PartiesLoader.run_parties db ctr caseId ps failCP failA).db.parties = db.parties
    ∧ cpKeys (PartiesLoader.run_parties db ctr caseId ps failCP failA).db.case_parties =
        cpKeys db.case_parties := by
  induction ps generalizing db ctr with
  | nil => exact ⟨rfl, rfl⟩
  | cons p rest ih =>
    rw [PartiesLoader.run_parties]
    obtain ⟨row, hrow⟩ := Option.isSome_iff_exists.mp (hname p (by simp))
    have hstep := process_party_stable caseId failCP failA db ctr p row hrow
      (fun c hc hf => hkey p (by simp) c hc hf row hrow)
    have hrec := ih (PartiesLoader.process_party caseId failCP failA (db, ctr) p).1
      (PartiesLoader.process_party caseId failCP failA (db, ctr) p).2
      (fun q hq => by rw [hstep.1]; exact hname q (by simp [hq]))
      (fun q hq c hc hf r hr => by
        rw [hstep.2]
        exact hkey q (by simp [hq]) c hc hf r (by rw [← hstep.1]; exact hr))
    exact ⟨hrec.1.trans hstep.1, hrec.2.trans hstep.2⟩

/-- C4: idempotence of the party and case-party writes.  A run preserves
uniqueness of party names and of `(caseId, partyId)` keys, and a second run
of the same extracted parties against the resulting store inserts nothing
new: the party table is literally unchanged (find-or-create hits every name
and returns the existing id) and the case-party key list is literally
unchanged (every link upsert takes the conflict branch, which overwrites
role and counsel in place instead of inserting). -/
theorem c4_rerun_no_duplicates (db : PartiesLoader.DB) (ctr ctr2 : Nat)
    (caseId : Option String) (ps : List PartiesLoader.PartyData)
    (failCP : PartiesLoader.PartyData → Bool) (failA : PartiesLoader.Attorney → Bool) :
    ((db.parties.map (·.name)).Nodup →
      ((PartiesLoader.run_parties db ctr caseId ps failCP failA).db.parties.map (·.name)).Nodup)
    ∧ ((cpKeys db.case_parties).Nodup →
      (cpKeys (PartiesLoader.run_parties db ctr caseId ps failCP failA).db.case_parties).Nodup)
    ∧ ((PartiesLoader.run_parties
          ((PartiesLoader.run_parties db ctr caseId ps failCP failA).db) ctr2 caseId ps
          failCP failA).db.parties =
        (PartiesLoader.run_parties db ctr caseId ps failCP failA).db.parties)
    ∧ (cpKeys (PartiesLoader.run_parties
          ((PartiesLoader.run_parties db ctr caseId ps failCP failA).db) ctr2 caseId ps
          failCP failA).db.case_parties =
        cpKeys (PartiesLoader.run_parties db ctr caseId ps failCP failA).db.case_parties) := by
  refine ⟨run_parties_names_nodup ps db ctr caseId failCP failA,
          run_parties_cpKeys_nodup ps db ctr caseId failCP failA, ?_⟩
  have hstable := run_parties_stable ps
    (PartiesLoader.run_parties db ctr caseId ps failCP failA).db ctr2 caseId failCP failA
    (run_parties_find_isSome ps db ctr caseId failCP failA)
    (fun q hq c hc hf r hr => by
      subst hc
      obtain ⟨row, hrow, hmem⟩ := run_parties_key_present ps db ctr c failCP failA q hq hf
      have : r = row := by
        have := hrow.symm.trans hr
        exact (Option.some.injEq _ _).mp this.symm
      rw [this]
      exact hmem)
  exact ⟨hstable.1, hstable.2⟩

/-- C4 witness: a concrete store and party list; the invariants hold before
the run, and a re-run leaves parties and case-party keys unchanged. -/
theorem c4_rerun_no_duplicates_witness :
    (((PartiesLoader.run_parties ⟨[⟨"cid", "24-2160"⟩], [], [], []⟩ 0 (some "cid")
        [⟨"ACME INC", "Appellant", "Corporation", []⟩,
         ⟨"JOHN SMITH", "Appellee", "Individual", []⟩]
        (fun _ => false) (fun _ => false)).db.parties.map (·.name)).Nodup)
    ∧ ((cpKeys (PartiesLoader.run_parties ⟨[⟨"cid", "24-2160"⟩], [], [], []⟩ 0 (some "cid")
        [⟨"ACME INC", "Appellant", "Corporation", []⟩,
         ⟨"JOHN SMITH", "Appellee", "Individual", []⟩]
        (fun _ => false) (fun _ => false)).db.case_parties).Nodup)
    ∧ ((PartiesLoader.run_parties
          ((PartiesLoader.run_parties ⟨[⟨"cid", "24-2160"⟩], [], [], []⟩ 0 (some "cid")
            [⟨"ACME INC", "Appellant", "Corporation", []⟩,
             ⟨"JOHN SMITH", "Appellee", "Individual", []⟩]
            (fun _ => false) (fun _ => false)).db) 2 (some "cid")
          [⟨"ACME INC", "Appellant", "Corporation", []⟩,
           ⟨"JOHN SMITH", "Appellee", "Individual", []⟩]
          (fun _ => false) (fun _ => false)).db.parties =
        (PartiesLoader.run_parties ⟨[⟨"cid", "24-2160"⟩], [], [], []⟩ 0 (some "cid")
          [⟨"ACME INC", "Appellant", "Corporation", []⟩,
           ⟨"JOHN SMITH", "Appellee", "Individual", []⟩]
          (fun _ => false) (fun _ => false)).db.parties) :=
  ⟨(c4_rerun_no_duplicates ⟨[⟨"cid", "24-2160"⟩], [], [], []⟩ 0 2 (some "cid")
      [⟨"ACME INC", "Appellant", "Corporation", []⟩,
       ⟨"JOHN SMITH", "Appellee", "Individual", []⟩]
      (fun _ => false) (fun _ => false)).1 (by decide),
   (c4_rerun_no_duplicates ⟨[⟨"cid", "24-2160"⟩], [], [], []⟩ 0 2 (some "cid")
      [⟨"ACME INC", "Appellant", "Corporation", []⟩,
       ⟨"JOHN SMITH", "Appellee", "Individual", []⟩]
      (fun _ => false) (fun _ => false)).2.1 (by decide),
   (c4_rerun_no_duplicates ⟨[⟨"cid", "24-2160"⟩], [], [], []⟩ 0 2 (some "cid")
      [⟨"ACME INC", "Appellant", "Corporation", []⟩,
       ⟨"JOHN SMITH", "Appellee", "Individual", []⟩]
      (fun _ => false) (fun _ => false)).2.2.1⟩

theorem splitSlash_ne_nil (l : List Char) : splitSlash l ≠ [] := by
  cases l with
  | nil => simp [splitSlash]
  | cons c cs =>
    rw [splitSlash]
    by_cases h : c == '/'
    · simp [h]
    · simp only [h, if_false]
      rcases hg : splitSlash cs with _ | ⟨g, gs⟩
      · simp
      · simp

theorem splitSlash_no_slash (xs : List Char) (h : ∀ c ∈ xs, ¬c = '/') :
    splitSlash xs = [xs] := by
  induction xs with
  | nil => rfl
  | cons c cs ih =>
    rw [splitSlash]
    rw [if_neg (by simpa using h c (by simp))]
    rw [ih (fun x hx => h x (by simp [hx]))]

theorem splitSlash_append (xs ys : List Char) (h : ∀ c ∈ xs, ¬c = '/') :
    splitSlash (xs ++ '/' :: ys) = xs :: splitSlash ys := by
  induction xs with
  | nil => simp [splitSlash]
  | cons c cs ih =>
    rw [List.cons_append, splitSlash]
    rw [if_neg (by simpa using h c (by simp))]
    rw [ih (fun x hx => h x (by simp [hx]))]

/-- Rejoin the groups produced by `splitSlash` with `'/'`. -/
def unsplitSlash : List (List Char) → List Char
  | [] => []
  | [x] => x
  | x :: xs => x ++ '/' :: unsplitSlash xs

theorem unsplitSlash_cons (x : List Char) (g : List (List Char)) (hg : g ≠ []) :
    unsplitSlash (x :: g) = x ++ '/' :: unsplitSlash g := by
  rcases g with _ | ⟨y, ys⟩
  · exact absurd rfl hg
  · rfl

theorem splitSlash_unsplit (l : List Char) : unsplitSlash (splitSlash l) = l := by
  induction l with
  | nil => rfl
  | cons c cs ih =>
    rw [splitSlash]
    by_cases h : c == '/'
    · rw [if_pos h, unsplitSlash_cons [] (splitSlash cs) (splitSlash_ne_nil cs), ih]
      have : c = '/' := by simpa using h
      simp [this]
    · rw [if_neg h]
      rcases hg : splitSlash cs with _ | ⟨g, gs⟩
      · exact absurd hg (splitSlash_ne_nil cs)
      · rcases gs with _ | ⟨g2, gs2⟩
        · show unsplitSlash [c :: g] = c :: cs
          have : unsplitSlash [g] = cs := by rw [← hg, ih]
          simpa [unsplitSlash] using this
        · rw [unsplitSlash_cons (c :: g) (g2 :: gs2) (by simp)]
          have : unsplitSlash (g :: g2 :: gs2) = cs := by rw [← hg, ih]
          rw [unsplitSlash_cons g (g2 :: gs2) (by simp)] at this
          simp [this]

theorem splitSlash_parts_no_slash (l : List Char) :
    ∀ part ∈ splitSlash l, '/' ∉ part := by
  induction l with
  | nil =>
    intro part hp
    simp only [splitSlash, List.mem_singleton] at hp
    simp [hp]
  | cons c cs ih =>
    intro part hp
    rw [splitSlash] at hp
    by_cases h : c == '/'
    · rw [if_pos h] at hp
      rcases List.mem_cons.mp hp with rfl | hmem
      · simp
      · exact ih part hmem
    · rw [if_neg h] at hp
      rcases hg : splitSlash cs with _ | ⟨g, gs⟩
      · exact absurd hg (splitSlash_ne_nil cs)
      · rw [hg] at hp
        rcases List.mem_cons.mp hp with rfl | hmem
        · intro hc
          rcases List.mem_cons.mp hc with rfl | hcg
          · exact absurd (by simp) h
          · exact ih g (by simp [hg]) hcg
        · exact ih part (by simp [hg, hmem])

theorem char_toNat_inj {a b : Char} (h : a.toNat = b.toNat) : a = b := by
  have h2 := congrArg Char.ofNat h
  rwa [Char.ofNat_toNat, Char.ofNat_toNat] at h2

theorem digitChar_toNat (k : Nat) (h : k < 10) : (digitChar k).toNat = 48 + k := by
  interval_cases k <;> rfl

theorem isDigitCh_bounds {a : Char} (h : isDigitCh a = true) :
    48 ≤ a.toNat ∧ a.toNat ≤ 57 := by
  simpa [isDigitCh] using h

theorem digitVal_lt_ten {a : Char} (h : isDigitCh a = true) : digitVal a < 10 := by
  have := isDigitCh_bounds h
  simp only [digitVal]
  omega

theorem digitChar_digitVal {a : Char} (h : isDigitCh a = true) :
    digitChar (digitVal a) = a := by
  have hb := isDigitCh_bounds h
  apply char_toNat_inj
  rw [digitChar_toNat (digitVal a) (digitVal_lt_ten h)]
  simp only [digitVal]
  omega

theorem digitVal_digitChar (k : Nat) (h : k < 10) : digitVal (digitChar k) = k := by
  simp only [digitVal]
  rw [digitChar_toNat k h]
  omega

theorem isDigitCh_digitChar (k : Nat) (h : k < 10) : isDigitCh (digitChar k) = true := by
  simp only [isDigitCh, decide_eq_true_eq]
  rw [digitChar_toNat k h]
  omega

theorem digitChar_ne_slash (k : Nat) (h : k < 10) : ¬digitChar k = '/' := by
  interval_cases k <;> decide

theorem digitsToNat_two (a b : Char) :
    digitsToNat [a, b] = 10 * digitVal a + digitVal b := by
  unfold digitsToNat
  rw [List.foldl_cons, List.foldl_cons, List.foldl_nil]
  omega

theorem digitsToNat_four (a b c d : Char) :
    digitsToNat [a, b, c, d] =
      1000 * digitVal a + 100 * digitVal b + 10 * digitVal c + digitVal d := by
  unfold digitsToNat
  rw [List.foldl_cons, List.foldl_cons, List.foldl_cons, List.foldl_cons, List.foldl_nil]
  omega

theorem twoDigits_digitsToNat (m : Nat) (h : m ≤ 99) :
    digitsToNat (twoDigits m) = m := by
  rw [twoDigits, digitsToNat_two,
    digitVal_digitChar (m / 10) (by omega), digitVal_digitChar (m % 10) (by omega)]
  omega

theorem fourDigits_digitsToNat (y : Nat) (h : y ≤ 9999) :
    digitsToNat (fourDigits y) = y := by
  rw [fourDigits, digitsToNat_four,
    digitVal_digitChar (y / 1000) (by omega), digitVal_digitChar (y / 100 % 10) (by omega),
    digitVal_digitChar (y / 10 % 10) (by omega), digitVal_digitChar (y % 10) (by omega)]
  omega

theorem digitsToNat_one (a : Char) : digitsToNat [a] = digitVal a := by
  unfold digitsToNat
  rw [List.foldl_cons, List.foldl_nil]
  omega

theorem daysInMonth_le (y m : Nat) : daysInMonth y m ≤ 31 := by
  unfold daysInMonth
  split_ifs <;> omega

/-- Modelled from the specification's words (§4.2, §8): a valid `MM/DD/YYYY`
date string — month and day written with one or two digits (one only when the
value is below ten), a four-digit year, separated by slashes, denoting a real
calendar date. -/
def validYMD (m d y : Nat) : Prop :=
  1 ≤ m ∧ m ≤ 12 ∧ 1 ≤ d ∧ d ≤ daysInMonth y m ∧ 1 ≤ y ∧ y ≤ 9999

/-- The `MM/DD/YYYY` rendering of a date, with each of month and day either
zero-padded to two digits or written as a single digit. -/
def mmddyyyy (padm padd : Bool) (m d y : Nat) : String :=
  ⟨(if padm then twoDigits m else [digitChar m]) ++
    '/' :: ((if padd then twoDigits d else [digitChar d]) ++ '/' :: fourDigits y)⟩

/-- Modelled from the specification's words: `s` is a valid `MM/DD/YYYY`
string for some real calendar date. -/
def validDateString (s : String) : Prop :=
  ∃ m d y : Nat, ∃ padm padd : Bool, validYMD m d y ∧
    (padm = false → m < 10) ∧ (padd = false → d < 10) ∧ s = mmddyyyy padm padd m d y

theorem oneDigit_facts (n : Nat) (h : n < 10) :
    allDigits [digitChar n] = true ∧ digitsToNat [digitChar n] = n
      ∧ ∀ c ∈ [digitChar n], ¬c = '/' := by
  refine ⟨?_, ?_, ?_⟩
  · simp [allDigits, isDigitCh_digitChar n h]
  · rw [digitsToNat_one, digitVal_digitChar n h]
  · intro c hc
    rcases List.mem_singleton.mp hc with rfl
    exact digitChar_ne_slash n h

theorem twoDigits_facts (n : Nat) (h : n ≤ 99) :
    allDigits (twoDigits n) = true ∧ (twoDigits n).length = 2
      ∧ digitsToNat (twoDigits n) = n ∧ ∀ c ∈ twoDigits n, ¬c = '/' := by
  refine ⟨?_, rfl, twoDigits_digitsToNat n h, ?_⟩
  · simp [allDigits, twoDigits, isDigitCh_digitChar (n / 10) (by omega),
      isDigitCh_digitChar (n % 10) (by omega)]
  · intro c hc
    rw [twoDigits] at hc
    rcases List.mem_cons.mp hc with rfl | hc2
    · exact digitChar_ne_slash (n / 10) (by omega)
    · rcases List.mem_singleton.mp hc2 with rfl
      exact digitChar_ne_slash (n % 10) (by omega)

theorem fourDigits_facts (n : Nat) (h : n ≤ 9999) :
    allDigits (fourDigits n) = true ∧ (fourDigits n).length = 4
      ∧ digitsToNat (fourDigits n) = n ∧ ∀ c ∈ fourDigits n, ¬c = '/' := by
  refine ⟨?_, rfl, fourDigits_digitsToNat n h, ?_⟩
  · simp [allDigits, fourDigits, isDigitCh_digitChar (n / 1000) (by omega),
      isDigitCh_digitChar (n / 100 % 10) (by omega), isDigitCh_digitChar (n / 10 % 10) (by omega),
      isDigitCh_digitChar (n % 10) (by omega)]
  · intro c hc
    rw [fourDigits] at hc
    rcases List.mem_cons.mp hc with rfl | hc2
    · exact digitChar_ne_slash (n / 1000) (by omega)
    rcases List.mem_cons.mp hc2 with rfl | hc3
    · exact digitChar_ne_slash (n / 100 % 10) (by omega)
    rcases List.mem_cons.mp hc3 with rfl | hc4
    · exact digitChar_ne_slash (n / 10 % 10) (by omega)
    rcases List.mem_singleton.mp hc4 with rfl
    exact digitChar_ne_slash (n % 10) (by omega)

theorem parse_date_valid (m d y : Nat) (padm padd : Bool)
    (hv : validYMD m d y) (hpm : padm = false → m < 10) (hpd : padd = false → d < 10) :
    LoadDocket.parse_date (mmddyyyy padm padd m d y) = some (isoDate y m d) := by
  obtain ⟨h1, h2, h3, h4, h5, h6⟩ := hv
  have hdm := daysInMonth_le y m
  have hm99 : m ≤ 99 := by omega
  have hd99 : d ≤ 99 := by omega
  have hAfacts : ∃ A : List Char, (if padm then twoDigits m else [digitChar m]) = A
      ∧ allDigits A = true ∧ 1 ≤ A.length ∧ A.length ≤ 2 ∧ digitsToNat A = m
      ∧ ∀ c ∈ A, ¬c = '/' := by
    cases padm
    · obtain ⟨f1, f2, f3⟩ := oneDigit_facts m (hpm rfl)
      exact ⟨[digitChar m], rfl, f1, by simp, by simp, f2, f3⟩
    · obtain ⟨f1, f2, f3, f4⟩ := twoDigits_facts m hm99
      exact ⟨twoDigits m, rfl, f1, by omega, by omega, f3, f4⟩
  have hBfacts : ∃ B : List Char, (if padd then twoDigits d else [digitChar d]) = B
      ∧ allDigits B = true ∧ 1 ≤ B.length ∧ B.length ≤ 2 ∧ digitsToNat B = d
      ∧ ∀ c ∈ B, ¬c = '/' := by
    cases padd
    · obtain ⟨f1, f2, f3⟩ := oneDigit_facts d (hpd rfl)
      exact ⟨[digitChar d], rfl, f1, by simp, by simp, f2, f3⟩
    · obtain ⟨f1, f2, f3, f4⟩ := twoDigits_facts d hd99
      exact ⟨twoDigits d, rfl, f1, by omega, by omega, f3, f4⟩
  obtain ⟨A, hAeq, hAdig, hAlen1, hAlen2, hAval, hAslash⟩ := hAfacts
  obtain ⟨B, hBeq, hBdig, hBlen1, hBlen2, hBval, hBslash⟩ := hBfacts
  obtain ⟨hCdig, hClen, hCval, hCslash⟩ := fourDigits_facts y h6
  rw [mmddyyyy, hAeq, hBeq]
  have hne : (⟨A ++ '/' :: (B ++ '/' :: fourDigits y)⟩ : String) ≠ "" := by
    intro hh
    have hd2 := congrArg String.data hh
    rcases A with _ | ⟨a0, arest⟩
    · simp at hAlen1
    · simp [String.data] at hd2
  rw [LoadDocket.parse_date, if_neg hne]
  have hsplit : splitSlash (A ++ '/' :: (B ++ '/' :: fourDigits y)) =
      [A, B, fourDigits y] := by
    rw [splitSlash_append A _ hAslash, splitSlash_append B _ hBslash,
      splitSlash_no_slash (fourDigits y) hCslash]
  show (match splitSlash (A ++ '/' :: (B ++ '/' :: fourDigits y)) with
    | [ms, ds, ys] =>
        if allDigits ms && 1 ≤ ms.length && ms.length ≤ 2 &&
           allDigits ds && 1 ≤ ds.length && ds.length ≤ 2 &&
           allDigits ys && ys.length == 4 then
          let m := digitsToNat ms
          let d := digitsToNat ds
          let y := digitsToNat ys
          if 1 ≤ m && m ≤ 12 && 1 ≤ d && d ≤ daysInMonth y m && 1 ≤ y then
            some (isoDate y m d)
          else none
        else none
    | _ => none) = some (isoDate y m d)
  rw [hsplit]
  simp only [hAdig, hBdig, hCdig, hClen, hAval, hBval, hCval]
  simp [hAlen1, hAlen2, hBlen1, hBlen2, h1, h2, h3, h4, h5]

theorem part_recover_two (a b : Char) (ha : isDigitCh a = true) (hb : isDigitCh b = true) :
    twoDigits (digitsToNat [a, b]) = [a, b] ∧ digitsToNat [a, b] ≤ 99 := by
  have hva := digitVal_lt_ten ha
  have hvb := digitVal_lt_ten hb
  rw [digitsToNat_two]
  refine ⟨?_, by omega⟩
  rw [twoDigits]
  have e1 : (10 * digitVal a + digitVal b) / 10 = digitVal a := by omega
  have e2 : (10 * digitVal a + digitVal b) % 10 = digitVal b := by omega
  rw [e1, e2, digitChar_digitVal ha, digitChar_digitVal hb]

theorem part_as_render (l : List Char) (hdig : allDigits l = true) (h1 : 1 ≤ l.length)
    (h2 : l.length ≤ 2) :
    ∃ pad : Bool, (if pad then twoDigits (digitsToNat l) else [digitChar (digitsToNat l)]) = l
      ∧ (pad = false → digitsToNat l < 10) ∧ digitsToNat l ≤ 99 := by
  rcases l with _ | ⟨a, _ | ⟨b, _ | ⟨x, xs⟩⟩⟩
  · simp at h1
  · have ha : isDigitCh a = true := by simpa [allDigits] using hdig
    refine ⟨false, ?_, ?_, ?_⟩
    · simp [digitsToNat_one, digitChar_digitVal ha]
    · intro _
      rw [digitsToNat_one]
      exact digitVal_lt_ten ha
    · rw [digitsToNat_one]
      have := digitVal_lt_ten ha
      omega
  · have hab : isDigitCh a = true ∧ isDigitCh b = true := by simpa [allDigits] using hdig
    obtain ⟨hrec, hle⟩ := part_recover_two a b hab.1 hab.2
    exact ⟨true, by simpa using hrec, by simp, hle⟩
  · simp at h2

theorem year_as_render (l : List Char) (hdig : allDigits l = true) (h4 : l.length = 4) :
    fourDigits (digitsToNat l) = l ∧ digitsToNat l ≤ 9999 := by
  rcases l with _ | ⟨p, _ | ⟨q, _ | ⟨r, _ | ⟨t, _ | ⟨u, us⟩⟩⟩⟩⟩ <;> simp at h4
  have hall : isDigitCh p = true ∧ isDigitCh q = true ∧ isDigitCh r = true ∧ isDigitCh t = true := by
    simpa [allDigits] using hdig
  obtain ⟨hp, hq, hr, ht⟩ := hall
  have vp := digitVal_lt_ten hp
  have vq := digitVal_lt_ten hq
  have vr := digitVal_lt_ten hr
  have vt := digitVal_lt_ten ht
  rw [digitsToNat_four]
  refine ⟨?_, by omega⟩
  rw [fourDigits]
  have e1 : (1000 * digitVal p + 100 * digitVal q + 10 * digitVal r + digitVal t) / 1000 =
      digitVal p := by omega
  have e2 : (1000 * digitVal p + 100 * digitVal q + 10 * digitVal r + digitVal t) / 100 % 10 =
      digitVal q := by omega
  have e3 : (1000 * digitVal p + 100 * digitVal q + 10 * digitVal r + digitVal t) / 10 % 10 =
      digitVal r := by omega
  have e4 : (1000 * digitVal p + 100 * digitVal q + 10 * digitVal r + digitVal t) % 10 =
      digitVal t := by omega
  rw [e1, e2, e3, e4, digitChar_digitVal hp, digitChar_digitVal hq, digitChar_digitVal hr,
    digitChar_digitVal ht]

theorem validDateString_of_parse_date_ne_none (s : String)
    (h : LoadDocket.parse_date s ≠ none) : validDateString s := by
  rw [LoadDocket.parse_date] at h
  by_cases hs : s = ""
  · rw [if_pos hs] at h
    exact absurd rfl h
  rw [if_neg hs] at h
  rcases hsp : splitSlash s.data with _ | ⟨ms, mrest⟩
  · exact absurd hsp (splitSlash_ne_nil _)
  rcases mrest with _ | ⟨ds, drest⟩
  · rw [hsp] at h
    exact absurd rfl h
  rcases drest with _ | ⟨ys, yrest⟩
  · rw [hsp] at h
    exact absurd rfl h
  rcases yrest with _ | ⟨w, ws⟩
  swap
  · rw [hsp] at h
    exact absurd rfl h
  rw [hsp] at h
  dsimp only at h
  split at h
  next hcond1 =>
    split at h
    next hcond2 =>
      simp only [Bool.and_eq_true, decide_eq_true_eq, beq_iff_eq] at hcond1
      obtain ⟨⟨⟨⟨⟨⟨⟨hmsdig, hms1⟩, hms2⟩, hdsdig⟩, hds1⟩, hds2⟩, hysdig⟩, hys4⟩ := hcond1
      simp only [Bool.and_eq_true, decide_eq_true_eq] at hcond2
      obtain ⟨⟨⟨⟨hm1, hm2⟩, hd1⟩, hd2⟩, hy1⟩ := hcond2
      obtain ⟨padm, hA, hpmlt, hm99⟩ := part_as_render ms hmsdig hms1 hms2
      obtain ⟨padd, hB, hpdlt, hd99⟩ := part_as_render ds hdsdig hds1 hds2
      obtain ⟨hC, hy9999⟩ := year_as_render ys hysdig hys4
      refine ⟨digitsToNat ms, digitsToNat ds, digitsToNat ys, padm, padd,
        ⟨hm1, hm2, hd1, hd2, hy1, hy9999⟩, hpmlt, hpdlt, ?_⟩
      have hdata : s.data = ms ++ '/' :: (ds ++ '/' :: ys) := by
        have hu := splitSlash_unsplit s.data
        rw [hsp] at hu
        simpa [unsplitSlash] using hu.symm
      rw [mmddyyyy, hA, hB, hC]
      cases s with
      | mk sl =>
        have hsl : sl = ms ++ '/' :: (ds ++ '/' :: ys) := hdata
        rw [hsl]
    next => exact absurd rfl h
  next => exact absurd rfl h

/-- C5: the date parser maps every valid `MM/DD/YYYY` string (month and day
in one or two digits, four-digit year, denoting a real calendar date) to the
corresponding zero-padded ISO `YYYY-MM-DD` string; it is a total function
(so it cannot throw), the empty string yields null, and whenever it returns
a non-null result the input was a valid `MM/DD/YYYY` string — equivalently,
every malformed input yields null. -/
theorem c5_parse_date (m d y : Nat) (padm padd : Bool) (s : String) :
    (validYMD m d y → (padm = false → m < 10) → (padd = false → d < 10) →
      LoadDocket.parse_date (mmddyyyy padm padd m d y) = some (isoDate y m d))
    ∧ LoadDocket.parse_date "" = none
    ∧ (LoadDocket.parse_date s ≠ none → validDateString s) :=
  ⟨fun hv hpm hpd => parse_date_valid m d y padm padd hv hpm hpd,
   rfl,
   fun h => validDateString_of_parse_date_ne_none s h⟩

/-- C5 witness: `01/02/2020` (and its unpadded form) parses to `2020-01-02`;
a string the parser accepts is certified valid. -/
theorem c5_parse_date_witness :
    validYMD 1 2 2020
    ∧ LoadDocket.parse_date (mmddyyyy true true 1 2 2020) = some (isoDate 2020 1 2)
    ∧ LoadDocket.parse_date "" = none
    ∧ LoadDocket.parse_date "1/2/2020" ≠ none
    ∧ validDateString "1/2/2020" :=
  ⟨by unfold validYMD; decide,
   (c5_parse_date 1 2 2020 true true "1/2/2020").1 (by unfold validYMD; decide) (by decide)
     (by decide),
   (c5_parse_date 1 2 2020 true true "1/2/2020").2.1,
   by decide,
   (c5_parse_date 1 2 2020 true true "1/2/2020").2.2 (by decide)⟩
